import Mathlib

/-!
# go-hashchain: a chain of digests and its comparison operations

A shallow embedding of `hashchain.go`.  A `Chain` is the Go struct
`Chain{chain [][]byte}`; the methods `Add`, `AddInline`, `AllSums`,
`FirstMatch`, `LastMatch` and `Sum` are translated statement by statement.
The Go standard-library collaborators (`io.Copy`, `io.TeeReader`,
`hash.Hash`, `encoding/hex`, `bytes.Equal`) are modelled next to them.

The methods are given twice: on digest sequences (what a chain holds), and
on a store of chain objects whose slices point into shared backing arrays
(where a chain keeps it).  The second form is what a statement about the
effect of a call on other chains needs; the two are proved to agree.
-/

set_option autoImplicit false

namespace hashchain

/-! ## Data model -/

/-- A Go `byte`. -/
abbrev Byte := Fin 256

/-- A digest is a Go `[]byte`. -/
abbrev Digest := List Byte

/-- Go error values that the package can return or meet. -/
inductive Error where
  /-- The package sentinel `ErrNoMatch = errors.New("Chains do not match")`. -/
  | ErrNoMatch
  /-- The sentinel `io.EOF`. -/
  | EOF
  /-- The sentinel `io.ErrShortWrite`. -/
  | ErrShortWrite
  /-- The internal `io` error "invalid write result". -/
  | errInvalidWrite
  /-- Any other error raised by a collaborator (a stream or a sink). -/
  | other (msg : String)
  /-- The value of `fmt.Errorf(msg ++ ": %w", inner)`. -/
  | wrap (msg : String) (inner : Error)
  deriving DecidableEq, Repr

/-- Outcome of a Go call returning `(*Chain, error)`: a value, an error value, or a
run-time abort on a slice expression whose bounds are out of range. -/
inductive Result (α : Type) where
  | ok (v : α)
  | error (e : Error)
  | outOfRange
  deriving DecidableEq, Repr

/-- The struct `Chain`: one field `chain [][]byte`. -/
structure Chain where
  chain : List Digest
  deriving DecidableEq, Repr

/-- The call `bytes.Equal(a, b)`: same length and same bytes. -/
def bytesEqual (a b : Digest) : Bool := decide (a = b)

/-- The slice expression `s[lo:]`: aborts unless `0 ≤ lo ≤ len(s)`. -/
def sliceFrom {α : Type} (s : List α) (lo : Int) : Option (List α) :=
  if 0 ≤ lo ∧ lo ≤ (s.length : Int) then some (s.drop lo.toNat) else none

/-- The digest `d` is byte-equal to some digest of the sequence `ch`. -/
def occursIn (d : Digest) (ch : List Digest) : Bool :=
  ch.any (fun e => bytesEqual e d)

/-! ## FirstMatch -/

/-- Inner loop of `FirstMatch`: `for x, c2byt := range c2.chain`, started at index `x`.
Gives the index at which `bytes.Equal(c2byt, cbyt)` first holds, if the loop meets one. -/
def firstMatchInner (cbyt : Digest) : List Digest → Nat → Option Nat
  | [], _ => none
  | c2byt :: rest, x => if bytesEqual c2byt cbyt then some x else firstMatchInner cbyt rest (x + 1)

/-- Outer loop of `FirstMatch`: `for _, cbyt := range c.chain`. -/
def firstMatchOuter (c2 : Chain) : List Digest → Result Chain
  | [] => Result.error Error.ErrNoMatch
  | cbyt :: rest =>
    match firstMatchInner cbyt c2.chain 0 with
    | some x =>
      match sliceFrom c2.chain (x : Int) with
      | some s => Result.ok ⟨s⟩
      | none => Result.outOfRange
    | none => firstMatchOuter c2 rest

/-- The method `func (c *Chain) FirstMatch(c2 *Chain) (*Chain, error)`. -/
def Chain.FirstMatch (c c2 : Chain) : Result Chain :=
  firstMatchOuter c2 c.chain

/-! ## LastMatch -/

/-- Inner loop of `LastMatch`, started at index `x` with the current value of `idx`.
Gives the final `(equal, idx)`: on a hit `equal = true` and the loop breaks before
`idx = x`; on a miss `idx = x` is assigned and the scan goes on. -/
def lastMatchInner (cbyt : Digest) : List Digest → Nat → Int → Bool × Int
  | [], _, idx => (false, idx)
  | c2byt :: rest, x, idx =>
    if bytesEqual c2byt cbyt then (true, idx) else lastMatchInner cbyt rest (x + 1) (x : Int)

/-- Outer loop of `LastMatch`, carrying `everEqual`. -/
def lastMatchOuter (c2 : Chain) : List Digest → Bool → Result Chain
  | [], everEqual =>
    if !everEqual then Result.error Error.ErrNoMatch else Result.ok ⟨[]⟩
  | cbyt :: rest, everEqual =>
    let r := lastMatchInner cbyt c2.chain 0 0
    let equal := r.1
    let idx := r.2
    let everEqual := everEqual || equal
    if !equal && everEqual then
      if idx == 0 then Result.ok c2
      else
        match sliceFrom c2.chain (idx - 1) with
        | some s => Result.ok ⟨s⟩
        | none => Result.outOfRange
    else lastMatchOuter c2 rest everEqual

/-- The method `func (c *Chain) LastMatch(c2 *Chain) (*Chain, error)`. -/
def Chain.LastMatch (c c2 : Chain) : Result Chain :=
  lastMatchOuter c2 c.chain false

/-! ## Collaborators: streams, sinks, hash accumulators -/

/-- What one call of `Read` on a stream delivers: the bytes and the error returned
with them (`none` is Go's `nil`). -/
structure ReadStep where
  data : List Byte
  err : Option Error
  deriving DecidableEq, Repr

/-- An `io.Reader`, given by what its successive `Read` calls deliver.  A `Read` past
the end of the script delivers `0, io.EOF`. -/
abbrev Reader := List ReadStep

/-- The call `io.ReadAll(r)`: everything the stream delivers up to its first error;
`io.EOF` is reported as `nil`. -/
def Reader.readAll : Reader → List Byte × Option Error
  | [] => ([], none)
  | s :: rest =>
    match s.err with
    | some e => (s.data, if e = Error.EOF then none else some e)
    | none => ((s.data ++ (Reader.readAll rest).1), (Reader.readAll rest).2)

/-- The non-empty blocks a complete copy of the stream hands to its destination, one
per `Write`: the data of every `Read` up to and including the first one that returns
an error. -/
def Reader.chunks : Reader → List (List Byte)
  | [] => []
  | s :: rest =>
    match s.err with
    | some _ => if s.data.length > 0 then [s.data] else []
    | none => (if s.data.length > 0 then [s.data] else []) ++ Reader.chunks rest

/-- An `io.Writer` sink: the bytes it has received so far, and what its next `Write`
calls will do.  `none` accepts the whole write; `some (n, e)` accepts at most `n`
bytes and returns the error `e`.  Past the end of the script every write is accepted. -/
structure Writer where
  out : List Byte
  faults : List (Option (Nat × Error))
  deriving DecidableEq, Repr

/-- The call `w.Write(p)` on a sink: the sink afterwards, the count and the error. -/
def Writer.Write (w : Writer) (p : List Byte) : Writer × Nat × Option Error :=
  match w.faults with
  | [] => (⟨w.out ++ p, []⟩, p.length, none)
  | none :: fs => (⟨w.out ++ p, fs⟩, p.length, none)
  | some (n, e) :: fs => (⟨w.out ++ p.take n, fs⟩, min n p.length, some e)

/-- The sink returns an error on one of its next `n` writes. -/
def Writer.failsWithin (w : Writer) (n : Nat) : Bool :=
  (w.faults.take n).any Option.isSome

/-- A `hash.Hash` accumulator: the digest algorithm and the bytes absorbed so far. -/
structure Hash where
  algo : List Byte → Digest
  absorbed : List Byte

/-- A fresh accumulator for the algorithm `algo` (as `sha512.New()`). -/
def Hash.fresh (algo : List Byte → Digest) : Hash := ⟨algo, []⟩

/-- The call `h.Write(p)` on an accumulator: it absorbs `p` and never returns an error. -/
def Hash.Write (h : Hash) (p : List Byte) : Hash × Nat × Option Error :=
  (⟨h.algo, h.absorbed ++ p⟩, p.length, none)

/-- The call `h.Sum(b)`: appends the digest of everything absorbed to `b`. -/
def Hash.Sum (h : Hash) (b : List Byte) : List Byte :=
  b ++ h.algo h.absorbed

/-- The tail of one turn of the loop of `io.Copy`: `if er != nil { if er != EOF { err = er }; break }`.
`none` when the loop goes on, `some err` when it breaks with the final value `err`. -/
def readVerdict (er : Option Error) : Option (Option Error) :=
  match er with
  | some e => some (if e ≠ Error.EOF then some e else none)
  | none => none

/-- One turn of the loop of `io.Copy` after `nr, er := src.Read(buf)` delivered `p, er`.
The second component is `none` when the loop goes on, and `some err` when it breaks
with the final value `err`. -/
def copyTurn {σ : Type} (write : σ → List Byte → σ × Nat × Option Error)
    (dst : σ) (p : List Byte) (er : Option Error) : σ × Option (Option Error) :=
  if p.length > 0 then
    let r := write dst p
    let nw := r.2.1
    let ew := if p.length < nw ∧ r.2.2 = none then some Error.errInvalidWrite else r.2.2
    let nw := if p.length < nw then 0 else nw
    match ew with
    | some e => (r.1, some (some e))
    | none =>
      if p.length ≠ nw then (r.1, some (some Error.ErrShortWrite))
      else (r.1, readVerdict er)
  else (dst, readVerdict er)

/-- The call `io.Copy(dst, src)` for a stream `src`: the destination afterwards and the
error returned. -/
def ioCopy {σ : Type} (write : σ → List Byte → σ × Nat × Option Error)
    (dst : σ) : Reader → σ × Option Error
  | [] => (dst, none)
  | s :: rest =>
    match copyTurn write dst s.data s.err with
    | (dst1, some err) => (dst1, err)
    | (dst1, none) => ioCopy write dst1 rest

/-- The method `teeReader.Read` of `io.TeeReader(r, h)`, applied to what the `Read` of
`r` delivered: the bytes are written to `h` before they are handed on. -/
def teeRead (h : Hash) (p : List Byte) (er : Option Error) : Hash × List Byte × Option Error :=
  if p.length > 0 then
    match h.Write p with
    | (h1, n, some e) => (h1, p.take n, some e)
    | (h1, _, none) => (h1, p, er)
  else (h, p, er)

/-- The call `io.Copy(dst, io.TeeReader(r, h))`: the destination and the accumulator
afterwards, and the error returned. -/
def ioCopyTee {σ : Type} (write : σ → List Byte → σ × Nat × Option Error)
    (dst : σ) (h : Hash) : Reader → σ × Hash × Option Error
  | [] => (dst, h, none)
  | s :: rest =>
    match teeRead h s.data s.err with
    | (h1, p, er) =>
      match copyTurn write dst p er with
      | (dst1, some err) => (dst1, h1, err)
      | (dst1, none) => ioCopyTee write dst1 h1 rest

/-- The call `bytes.NewBuffer(b)` read as a stream: one `Read` delivers all of `b`;
an empty buffer delivers `0, io.EOF` at once. -/
def bytesNewBuffer (b : List Byte) : Reader :=
  if b.isEmpty then [] else [⟨b, none⟩]

/-! ## Hex encoding (`encoding/hex`) -/

/-- The table `hextable = "0123456789abcdef"`. -/
def hextable : List Char :=
  ['0', '1', '2', '3', '4', '5', '6', '7', '8', '9', 'a', 'b', 'c', 'd', 'e', 'f']

/-- The function `hex.Encode`: two characters per byte, `hextable[v>>4]` then
`hextable[v&0x0f]`. -/
def Encode : List Byte → List Char
  | [] => []
  | v :: rest =>
    hextable.getD (v.val >>> 4) '0' :: hextable.getD (v.val &&& 0x0f) '0' :: Encode rest

/-- The function `hex.EncodeToString`. -/
def EncodeToString (src : List Byte) : String := String.mk (Encode src)

/-- The function `fromHexChar` of `encoding/hex`. -/
def fromHexChar (c : Char) : Option Nat :=
  if '0' ≤ c ∧ c ≤ '9' then some (c.toNat - '0'.toNat)
  else if 'a' ≤ c ∧ c ≤ 'f' then some (c.toNat - 'a'.toNat + 10)
  else if 'A' ≤ c ∧ c ≤ 'F' then some (c.toNat - 'A'.toNat + 10)
  else none

/-- The function `hex.Decode`: `none` on an invalid character or an odd length. -/
def Decode : List Char → Option (List Byte)
  | [] => some []
  | [_] => none
  | p :: q :: rest =>
    match fromHexChar p, fromHexChar q, Decode rest with
    | some a, some b, some bs => some (Fin.ofNat ((a <<< 4) ||| b) :: bs)
    | _, _, _ => none

/-- The function `hex.DecodeString`. -/
def DecodeString (s : String) : Option (List Byte) := Decode s.data

/-- A character of a lowercase hex string. -/
def isLowerHex (c : Char) : Bool :=
  (decide ('0' ≤ c) && decide (c ≤ '9')) || (decide ('a' ≤ c) && decide (c ≤ 'f'))

/-! ## Ingestion and export -/

/-- What `Add` leaves behind: the receiver after the call and the two return values. -/
structure AddResult where
  chain : Chain
  sum : String
  err : Option Error
  deriving DecidableEq, Repr

/-- The method `func (c *Chain) Add(r io.Reader, h hash.Hash) (string, error)`. -/
def Chain.Add (c : Chain) (r : Reader) (h : Hash) : AddResult :=
  match ioCopy Hash.Write h r with
  | (_, some err) => ⟨c, "", some (Error.wrap "Could not digest reader" err)⟩
  | (h1, none) =>
    let sum := h1.Sum []
    ⟨⟨c.chain ++ [sum]⟩, EncodeToString sum, none⟩

/-- What `AddInline` leaves behind: the receiver and the sink after the call and the
two return values. -/
structure AddInlineResult where
  chain : Chain
  sink : Writer
  sum : String
  err : Option Error
  deriving DecidableEq, Repr

/-- The method
`func (c *Chain) AddInline(w io.Writer, r io.Reader, h hash.Hash) (string, error)`. -/
def Chain.AddInline (c : Chain) (w : Writer) (r : Reader) (h : Hash) : AddInlineResult :=
  match ioCopyTee Writer.Write w h r with
  | (w1, _, some err) => ⟨c, w1, "", some (Error.wrap "Could not copy from reader" err)⟩
  | (w1, h1, none) =>
    let sum := h1.Sum []
    ⟨⟨c.chain ++ [sum]⟩, w1, EncodeToString sum, none⟩

/-- The method `func (c *Chain) AllSums() []string`. -/
def Chain.AllSums (c : Chain) : List String :=
  c.chain.foldl (fun res byt => res ++ [EncodeToString byt]) []

/-- Loop of `Sum`: every digest is copied into the accumulator; the first failing
copy ends the loop with its error. -/
def sumLoop : List Digest → Hash → Hash × Option Error
  | [], h => (h, none)
  | byt :: rest, h =>
    match ioCopy Hash.Write h (bytesNewBuffer byt) with
    | (h1, some err) => (h1, some err)
    | (h1, none) => sumLoop rest h1

/-- The method `func (c *Chain) Sum(h hash.Hash) (string, error)`. -/
def Chain.Sum (c : Chain) (h : Hash) : String × Option Error :=
  match sumLoop c.chain h with
  | (_, some err) => ("", some (Error.wrap "Failed to hash chain" err))
  | (h1, none) => (EncodeToString (h1.Sum []), none)

/-- One ingestion call, as a caller issues it. -/
inductive Ingest where
  | add (r : Reader) (h : Hash)
  | addInline (w : Writer) (r : Reader) (h : Hash)

/-- Runs one ingestion call on the chain: the chain afterwards, the returned string
and the returned error. -/
def Ingest.run (c : Chain) : Ingest → AddResult
  | Ingest.add r h => c.Add r h
  | Ingest.addInline w r h =>
    let res := c.AddInline w r h
    ⟨res.chain, res.sum, res.err⟩

/-- Runs a sequence of ingestion calls in order: the chain afterwards and what each
call returned. -/
def runIngests : Chain → List Ingest → Chain × List (String × Option Error)
  | c, [] => (c, [])
  | c, op :: ops =>
    let res := op.run c
    let tl := runIngests res.chain ops
    (tl.1, (res.sum, res.err) :: tl.2)

/-- A toy digest algorithm for concrete evaluations: the length of the content and
the sum of its bytes, each as one byte. -/
def toyAlgo (b : List Byte) : Digest :=
  [Fin.ofNat b.length, Fin.ofNat (b.map Fin.val).sum]

/-! ## Storage: chains as slices over shared backing arrays

The methods once more, now on the memory they work on.  A `*Chain` is an index into
the `Chain` objects of the store; the field `chain` of each is a slice value that
points into a backing array, and two slice values may point into the same array. -/

/-- A slice value of type `[][]byte`: the backing array it points into (an index into
the arrays of the store), the offset of its first element in that array, its length
and its capacity. -/
structure SliceHdr where
  arr : Nat
  off : Nat
  len : Nat
  cap : Nat
  deriving DecidableEq, Repr

/-- The nil slice, the zero value of the field `chain` (as in `&Chain{}`). -/
def SliceHdr.null : SliceHdr := ⟨0, 0, 0, 0⟩

/-- The slice expression `s[lo:]` on a slice value: the same array, the window moved
up by `lo`; aborts unless `0 ≤ lo ≤ len(s)`. -/
def SliceHdr.sliceFrom (s : SliceHdr) (lo : Int) : Option SliceHdr :=
  if 0 ≤ lo ∧ lo ≤ (s.len : Int) then
    some ⟨s.arr, s.off + lo.toNat, s.len - lo.toNat, s.cap - lo.toNat⟩
  else none

/-- The memory of a program that uses chains: the backing arrays, and the `Chain`
objects, each given by the slice value in its field `chain`. -/
structure Store where
  arrays : List (List Digest)
  chains : List SliceHdr
  deriving DecidableEq, Repr

/-- The field `c.chain` of the chain object that the pointer `c` refers to. -/
def Store.hdr (st : Store) (c : Nat) : SliceHdr :=
  st.chains.getD c SliceHdr.null

/-- The elements of a slice value: `len` cells of its array from `off` on. -/
def Store.elems (st : Store) (s : SliceHdr) : List Digest :=
  ((st.arrays.getD s.arr []).drop s.off).take s.len

/-- The digest sequence the chain `c` holds. -/
def Store.digests (st : Store) (c : Nat) : List Digest :=
  st.elems (st.hdr c)

/-- The slice value lies within its array: `len ≤ cap` and `off + cap` cells exist. -/
def Store.okHdr (st : Store) (s : SliceHdr) : Bool :=
  decide (s.len ≤ s.cap) && decide (s.off + s.cap ≤ (st.arrays.getD s.arr []).length)

/-- Every chain object of the store holds a slice value that lies within its array. -/
def Store.wf (st : Store) : Bool :=
  st.chains.all st.okHdr

/-- The expression `&Chain{chain: s}`: a new chain object; gives the pointer to it. -/
def Store.alloc (st : Store) (s : SliceHdr) : Store × Nat :=
  (⟨st.arrays, st.chains ++ [s]⟩, st.chains.length)

/-- The assignment `c.chain = s`. -/
def Store.setChain (st : Store) (c : Nat) (s : SliceHdr) : Store :=
  ⟨st.arrays, st.chains.set c s⟩

/-- The call `append(s, d)`.  With spare capacity the cell after the last element of
`s` is overwritten in the array of `s`; otherwise the elements move to a new array of
capacity `max (len + 1) (grow cap)`, where `grow` is the growth rule of the runtime. -/
def Store.append (grow : Nat → Nat) (st : Store) (s : SliceHdr) (d : Digest) :
    Store × SliceHdr :=
  if s.len < s.cap then
    (⟨st.arrays.set s.arr ((st.arrays.getD s.arr []).set (s.off + s.len) d), st.chains⟩,
      ⟨s.arr, s.off, s.len + 1, s.cap⟩)
  else
    (⟨st.arrays ++
        [st.elems s ++ d :: List.replicate (max (s.len + 1) (grow s.cap) - (s.len + 1)) []],
        st.chains⟩,
      ⟨st.arrays.length, 0, s.len + 1, max (s.len + 1) (grow s.cap)⟩)

/-- The growth rule of the Go runtime for small slices: the capacity doubles. -/
def growDouble (cap : Nat) : Nat := 2 * cap

/-- What a method leaves behind on the store: the store after the call, the returned
string (if any) and the returned error. -/
structure StoreOut where
  store : Store
  sum : String
  err : Option Error
  deriving DecidableEq, Repr

/-- The statement `c.chain = append(c.chain, d)`. -/
def Store.appendTo (grow : Nat → Nat) (st : Store) (c : Nat) (d : Digest) : Store :=
  (st.append grow (st.hdr c) d).1.setChain c (st.append grow (st.hdr c) d).2

/-- The cell that `append(c.chain, d)` overwrites in place is an element of the chain
`q`: `c.chain` has spare capacity, `q.chain` points into the same array, and the cell
after the last element of `c.chain` lies in the window of `q.chain`. -/
def Store.writesInto (st : Store) (c q : Nat) : Bool :=
  decide ((st.hdr c).len < (st.hdr c).cap) && decide ((st.hdr q).arr = (st.hdr c).arr) &&
    decide ((st.hdr q).off ≤ (st.hdr c).off + (st.hdr c).len) &&
    decide ((st.hdr c).off + (st.hdr c).len < (st.hdr q).off + (st.hdr q).len)

/-- The method `Add` on the store: `c.chain = append(c.chain, sum)` after a copy
without error. -/
def Store.Add (grow : Nat → Nat) (st : Store) (c : Nat) (r : Reader) (h : Hash) : StoreOut :=
  match ioCopy Hash.Write h r with
  | (_, some err) => ⟨st, "", some (Error.wrap "Could not digest reader" err)⟩
  | (h1, none) =>
    let sum := h1.Sum []
    ⟨st.appendTo grow c sum, EncodeToString sum, none⟩

/-- The method `AddInline` on the store (the sink is not part of the store). -/
def Store.AddInline (grow : Nat → Nat) (st : Store) (c : Nat) (w : Writer) (r : Reader)
    (h : Hash) : StoreOut :=
  match ioCopyTee Writer.Write w h r with
  | (_, _, some err) => ⟨st, "", some (Error.wrap "Could not copy from reader" err)⟩
  | (_, h1, none) =>
    let sum := h1.Sum []
    ⟨st.appendTo grow c sum, EncodeToString sum, none⟩

/-- The method `AllSums` on the store: the loop over `c.chain` carries the store and
appends to the local slice `res` only. -/
def Store.AllSums (st : Store) (c : Nat) : Store × List String :=
  (st.digests c).foldl (fun acc byt => (acc.1, acc.2 ++ [EncodeToString byt])) (st, [])

/-- Loop of `Sum` on the store: each turn copies one digest into the accumulator. -/
def sumLoopS : List Digest → Store → Hash → Store × Hash × Option Error
  | [], st, h => (st, h, none)
  | byt :: rest, st, h =>
    match ioCopy Hash.Write h (bytesNewBuffer byt) with
    | (h1, some err) => (st, h1, some err)
    | (h1, none) => sumLoopS rest st h1

/-- The method `Sum` on the store. -/
def Store.Sum (st : Store) (c : Nat) (h : Hash) : StoreOut :=
  match sumLoopS (st.digests c) st h with
  | (st1, _, some err) => ⟨st1, "", some (Error.wrap "Failed to hash chain" err)⟩
  | (st1, h1, none) => ⟨st1, EncodeToString (h1.Sum []), none⟩

/-- Outer loop of `FirstMatch` on the store: on a hit at `x` a new chain object is made
whose field is the slice value `c2.chain[x:]`, which points into the array of `c2`. -/
def firstMatchOuterS (st : Store) (c2 : Nat) : List Digest → Store × Result Nat
  | [] => (st, Result.error Error.ErrNoMatch)
  | cbyt :: rest =>
    match firstMatchInner cbyt (st.digests c2) 0 with
    | some x =>
      match (st.hdr c2).sliceFrom (x : Int) with
      | some s => ((st.alloc s).1, Result.ok (st.alloc s).2)
      | none => (st, Result.outOfRange)
    | none => firstMatchOuterS st c2 rest

/-- The method `FirstMatch` on the store: the store after the call and the returned
pointer. -/
def Store.FirstMatch (st : Store) (c c2 : Nat) : Store × Result Nat :=
  firstMatchOuterS st c2 (st.digests c)

/-- Outer loop of `LastMatch` on the store.  `return c2, nil` gives back the pointer
`c2` itself; the other returns make a new chain object, over `c2.chain[idx-1:]` or
over the nil slice. -/
def lastMatchOuterS (st : Store) (c2 : Nat) : List Digest → Bool → Store × Result Nat
  | [], everEqual =>
    if !everEqual then (st, Result.error Error.ErrNoMatch)
    else ((st.alloc SliceHdr.null).1, Result.ok (st.alloc SliceHdr.null).2)
  | cbyt :: rest, everEqual =>
    let r := lastMatchInner cbyt (st.digests c2) 0 0
    let equal := r.1
    let idx := r.2
    let everEqual := everEqual || equal
    if !equal && everEqual then
      if idx == 0 then (st, Result.ok c2)
      else
        match (st.hdr c2).sliceFrom (idx - 1) with
        | some s => ((st.alloc s).1, Result.ok (st.alloc s).2)
        | none => (st, Result.outOfRange)
    else lastMatchOuterS st c2 rest everEqual

/-- The method `LastMatch` on the store: the store after the call and the returned
pointer. -/
def Store.LastMatch (st : Store) (c c2 : Nat) : Store × Result Nat :=
  lastMatchOuterS st c2 (st.digests c) false

/-- One call of a method of `Chain`: the receiver `c`, the argument chain `c2` if the
method takes one, and the other arguments. -/
inductive Call where
  | add (c : Nat) (r : Reader) (h : Hash)
  | addInline (c : Nat) (w : Writer) (r : Reader) (h : Hash)
  | allSums (c : Nat)
  | sum (c : Nat) (h : Hash)
  | firstMatch (c c2 : Nat)
  | lastMatch (c c2 : Nat)

/-- The receiver of the call. -/
def Call.receiver : Call → Nat
  | Call.add c _ _ => c
  | Call.addInline c _ _ _ => c
  | Call.allSums c => c
  | Call.sum c _ => c
  | Call.firstMatch c _ => c
  | Call.lastMatch c _ => c

/-- The call is an ingestion (`Add` or `AddInline`). -/
def Call.ingests : Call → Bool
  | Call.add _ _ _ => true
  | Call.addInline _ _ _ _ => true
  | _ => false

/-- Runs the call: the store after it, and the error it returned (`none` is `nil`;
`AllSums` returns no error). -/
def Call.run (grow : Nat → Nat) (st : Store) : Call → Store × Option Error
  | Call.add c r h => ((st.Add grow c r h).store, (st.Add grow c r h).err)
  | Call.addInline c w r h =>
    ((st.AddInline grow c w r h).store, (st.AddInline grow c w r h).err)
  | Call.allSums c => ((st.AllSums c).1, none)
  | Call.sum c h => ((st.Sum c h).store, (st.Sum c h).err)
  | Call.firstMatch c c2 =>
    ((st.FirstMatch c c2).1,
      match (st.FirstMatch c c2).2 with
      | Result.error e => some e
      | _ => none)
  | Call.lastMatch c c2 =>
    ((st.LastMatch c c2).1,
      match (st.LastMatch c c2).2 with
      | Result.error e => some e
      | _ => none)

/-- Runs the calls one after the other: the store after the last. -/
def runCalls (grow : Nat → Nat) : Store → List Call → Store
  | st, [] => st
  | st, call :: calls => runCalls grow (call.run grow st).1 calls

/-- A stream that delivers the one byte `b` and ends. -/
def oneByte (b : Byte) : Reader := [⟨[b], none⟩]

/-- A history under the doubling growth rule, from two empty chains `0` and `1`: chain
`1` ingests three contents, chain `0` ingests the first of them, `0.FirstMatch(1)`
returns the new chain `2`, a view of all of chain `1`, and chain `2` ingests a fourth
content. -/
def sharedHistory : Store :=
  runCalls growDouble ⟨[], [SliceHdr.null, SliceHdr.null]⟩
    [Call.add 1 (oneByte 1) (Hash.fresh toyAlgo), Call.add 1 (oneByte 2) (Hash.fresh toyAlgo),
      Call.add 1 (oneByte 3) (Hash.fresh toyAlgo), Call.add 0 (oneByte 1) (Hash.fresh toyAlgo),
      Call.firstMatch 0 1, Call.add 2 (oneByte 4) (Hash.fresh toyAlgo)]

/-- A store that got new chain objects only: the arrays and the old objects are as
they were, and each new object holds a slice value within its array. -/
def Store.grewFrom (st1 st : Store) : Prop :=
  st1.arrays = st.arrays ∧
    ∃ extra : List SliceHdr, st1.chains = st.chains ++ extra ∧
      ∀ s ∈ extra, st.okHdr s = true

/-! ## Facts about the scans -/

theorem bytesEqual_self (d : Digest) : bytesEqual d d = true := by
  simp [bytesEqual]

theorem occursIn_cons (d e : Digest) (ch : List Digest) :
    occursIn d (e :: ch) = (bytesEqual e d || occursIn d ch) := by
  simp [occursIn]

theorem occursIn_iff_mem (d : Digest) (ch : List Digest) :
    occursIn d ch = true ↔ d ∈ ch := by
  induction ch with
  | nil => simp [occursIn]
  | cons e ch ih =>
    rw [occursIn_cons, Bool.or_eq_true, ih]
    simp only [bytesEqual, decide_eq_true_eq, List.mem_cons]
    constructor
    · rintro (h | h)
      · exact Or.inl h.symm
      · exact Or.inr h
    · rintro (h | h)
      · exact Or.inl h.symm
      · exact Or.inr h

theorem sliceFrom_natCast {α : Type} (s : List α) (n : Nat) (h : n ≤ s.length) :
    sliceFrom s (n : Int) = some (s.drop n) := by
  have h2 : (n : Int) ≤ (s.length : Int) := by exact_mod_cast h
  simp [sliceFrom, h2]

/-- The inner scan of `FirstMatch` misses exactly when the digest does not occur. -/
theorem firstMatchInner_eq_none (cbyt : Digest) (l : List Digest) (x : Nat) :
    firstMatchInner cbyt l x = none ↔ occursIn cbyt l = false := by
  induction l generalizing x with
  | nil => simp [firstMatchInner, occursIn]
  | cons e l ih =>
    rw [occursIn_cons]
    by_cases he : bytesEqual e cbyt = true
    · simp [firstMatchInner, he]
    · simp only [Bool.not_eq_true] at he
      simp [firstMatchInner, he, ih]

/-- A hit of the inner scan of `FirstMatch` lies inside the scanned range. -/
theorem firstMatchInner_bounds (cbyt : Digest) (l : List Digest) (x i : Nat)
    (h : firstMatchInner cbyt l x = some i) : x ≤ i ∧ i < x + l.length := by
  induction l generalizing x with
  | nil => simp [firstMatchInner] at h
  | cons e l ih =>
    by_cases he : bytesEqual e cbyt = true
    · simp [firstMatchInner, he] at h
      subst h
      simp
    · simp only [Bool.not_eq_true] at he
      simp only [firstMatchInner, he, Bool.false_eq_true, if_false] at h
      have := ih (x + 1) h
      simp only [List.length_cons]
      omega

/-- The flag `equal` after the inner scan of `LastMatch`. -/
theorem lastMatchInner_fst (cbyt : Digest) (l : List Digest) (x : Nat) (idx : Int) :
    (lastMatchInner cbyt l x idx).1 = occursIn cbyt l := by
  induction l generalizing x idx with
  | nil => simp [lastMatchInner, occursIn]
  | cons e l ih =>
    rw [occursIn_cons]
    by_cases he : bytesEqual e cbyt = true
    · simp [lastMatchInner, he]
    · simp only [Bool.not_eq_true] at he
      simp [lastMatchInner, he, ih]

/-- The variable `idx` after an inner scan of `LastMatch` that misses: the index of
the last digest scanned. -/
theorem lastMatchInner_snd_miss (cbyt : Digest) (l : List Digest) (x : Nat) (idx : Int)
    (h : occursIn cbyt l = false) :
    (lastMatchInner cbyt l x idx).2 =
      if l = [] then idx else ((x + l.length - 1 : Nat) : Int) := by
  induction l generalizing x idx with
  | nil => simp [lastMatchInner]
  | cons e l ih =>
    rw [occursIn_cons, Bool.or_eq_false_iff] at h
    simp only [lastMatchInner, h.1, Bool.false_eq_true, if_false]
    rw [ih (x + 1) (x : Int) h.2]
    by_cases hl : l = []
    · subst hl
      simp
    · simp only [hl, if_false, List.length_cons]
      simp

/-- The suffix the miss branch of `LastMatch` returns: the last two digests of `c2`
(all of `c2` when it holds fewer). -/
theorem lastMatch_miss_branch (c2 : Chain) (cbyt : Digest)
    (h : occursIn cbyt c2.chain = false) :
    (if (lastMatchInner cbyt c2.chain 0 0).2 == 0 then Result.ok c2
      else
        match sliceFrom c2.chain ((lastMatchInner cbyt c2.chain 0 0).2 - 1) with
        | some s => Result.ok ⟨s⟩
        | none => Result.outOfRange)
      = Result.ok ⟨c2.chain.drop (c2.chain.length - 2)⟩ := by
  rw [lastMatchInner_snd_miss cbyt c2.chain 0 0 h]
  rcases c2 with ⟨l⟩
  rcases l with _ | ⟨a, _ | ⟨b, l⟩⟩
  · simp
  · simp
  · have hne : ¬ (((0 + (a :: b :: l).length - 1 : Nat) : Int) == 0) = true := by
      simp only [List.length_cons, beq_iff_eq]
      omega
    have hsl : sliceFrom (a :: b :: l) (((0 + (a :: b :: l).length - 1 : Nat) : Int) - 1)
        = some ((a :: b :: l).drop ((a :: b :: l).length - 2)) := by
      have : (((0 + (a :: b :: l).length - 1 : Nat) : Int) - 1)
          = (((a :: b :: l).length - 2 : Nat) : Int) := by
        simp only [List.length_cons]
        omega
      rw [this]
      exact sliceFrom_natCast _ _ (by omega)
    simp only [reduceCtorEq, if_false, hne, hsl]

/-- One turn of the outer loop of `LastMatch`. -/
theorem lastMatchOuter_cons (c2 : Chain) (cbyt : Digest) (rest : List Digest) (ev : Bool) :
    lastMatchOuter c2 (cbyt :: rest) ev =
      if occursIn cbyt c2.chain = true then lastMatchOuter c2 rest true
      else if ev = true then Result.ok ⟨c2.chain.drop (c2.chain.length - 2)⟩
      else lastMatchOuter c2 rest false := by
  by_cases h : occursIn cbyt c2.chain = true
  · have h1 := lastMatchInner_fst cbyt c2.chain 0 0
    rw [h] at h1
    simp [lastMatchOuter, h1, h]
  · simp only [Bool.not_eq_true] at h
    have h1 := lastMatchInner_fst cbyt c2.chain 0 0
    rw [h] at h1
    cases ev with
    | true =>
      have := lastMatch_miss_branch c2 cbyt h
      simp only [lastMatchOuter, h1, h, Bool.not_false, Bool.or_false, Bool.and_self,
        if_true, Bool.false_eq_true, if_false]
      exact this
    | false =>
      simp [lastMatchOuter, h1, h]

/-- Once a digest has matched, a receiver whose remaining digests all occur in `c2`
ends in the fully overlapping result. -/
theorem lastMatchOuter_all_occur (c2 : Chain) (l : List Digest)
    (h : ∀ d ∈ l, occursIn d c2.chain = true) :
    lastMatchOuter c2 l true = Result.ok ⟨[]⟩ := by
  induction l with
  | nil => simp [lastMatchOuter]
  | cons a l ih =>
    rw [lastMatchOuter_cons, if_pos (h a (List.mem_cons_self a l))]
    exact ih (fun d hd => h d (List.mem_cons_of_mem a hd))

/-- A non-empty receiver all of whose digests occur in `c2` gets the empty chain. -/
theorem lastMatch_all_occur (c c2 : Chain) (hne : c.chain ≠ [])
    (h : ∀ d ∈ c.chain, occursIn d c2.chain = true) :
    c.LastMatch c2 = Result.ok ⟨[]⟩ := by
  unfold Chain.LastMatch
  rcases hc : c.chain with _ | ⟨a, l⟩
  · exact absurd hc hne
  · rw [hc] at h
    rw [lastMatchOuter_cons, if_pos (h a (List.mem_cons_self a l))]
    exact lastMatchOuter_all_occur c2 l (fun d hd => h d (List.mem_cons_of_mem a hd))

/-- The outer loop of `FirstMatch` fails with `ErrNoMatch` exactly when no digest of the
receiver occurs in `c2`, and otherwise returns a chain. -/
theorem firstMatchOuter_spec (c2 : Chain) (l : List Digest) :
    (firstMatchOuter c2 l = Result.error Error.ErrNoMatch ↔
        ∀ d ∈ l, occursIn d c2.chain = false) ∧
      (firstMatchOuter c2 l = Result.error Error.ErrNoMatch ∨
        ∃ r, firstMatchOuter c2 l = Result.ok r) := by
  induction l with
  | nil => simp [firstMatchOuter]
  | cons a l ih =>
    rcases hx : firstMatchInner a c2.chain 0 with _ | x
    · have hocc := (firstMatchInner_eq_none a c2.chain 0).mp hx
      simp only [firstMatchOuter, hx, List.mem_cons, forall_eq_or_imp, hocc, true_and]
      exact ih
    · have hb := firstMatchInner_bounds a c2.chain 0 x hx
      have hsl := sliceFrom_natCast c2.chain x (by omega)
      have hocc : occursIn a c2.chain = true := by
        by_contra hc
        simp only [Bool.not_eq_true] at hc
        rw [(firstMatchInner_eq_none a c2.chain 0).mpr hc] at hx
        exact Option.noConfusion hx
      simp [firstMatchOuter, hx, hsl, hocc]

/-- The outer loop of `LastMatch` fails with `ErrNoMatch` exactly when nothing has
matched before and no remaining digest occurs in `c2`, and otherwise returns a chain. -/
theorem lastMatchOuter_spec (c2 : Chain) (l : List Digest) (ev : Bool) :
    (lastMatchOuter c2 l ev = Result.error Error.ErrNoMatch ↔
        ev = false ∧ ∀ d ∈ l, occursIn d c2.chain = false) ∧
      (lastMatchOuter c2 l ev = Result.error Error.ErrNoMatch ∨
        ∃ r, lastMatchOuter c2 l ev = Result.ok r) := by
  induction l generalizing ev with
  | nil => cases ev <;> simp [lastMatchOuter]
  | cons a l ih =>
    rw [lastMatchOuter_cons]
    by_cases hocc : occursIn a c2.chain = true
    · simp only [hocc, if_true, List.mem_cons, forall_eq_or_imp, Bool.true_eq_false,
        false_and, and_false, iff_false]
      have := ih true
      simp only [Bool.true_eq_false, false_and, iff_false] at this
      exact this
    · simp only [Bool.not_eq_true] at hocc
      cases ev with
      | true => simp [hocc]
      | false =>
        simp only [hocc, Bool.false_eq_true, if_false, List.mem_cons, forall_eq_or_imp,
          true_and]
        have := ih false
        simp only [true_and] at this
        exact this

/-! ## Claims on the comparison operations -/

/-- C1: with a shared prefix of `k = 1` digests, receiver `[[1],[2]]` and argument
`[[1],[3]]` (each longer than `k`, the tails disjoint from the other chain),
`LastMatch` returns all of the argument chain in both directions, which is not the
argument's digests from index `k` to the end. -/
theorem C1_lastMatch_returns_last_two_not_suffix_from_k :
    (([[1], [2]] : List Digest).take 1 = ([[1], [3]] : List Digest).take 1 ∧
      1 < ([[1], [2]] : List Digest).length ∧ 1 < ([[1], [3]] : List Digest).length ∧
      (∀ d ∈ ([[1], [2]] : List Digest).drop 1, occursIn d [[1], [3]] = false) ∧
      (∀ d ∈ ([[1], [3]] : List Digest).drop 1, occursIn d [[1], [2]] = false)) ∧
    Chain.LastMatch ⟨[[1], [2]]⟩ ⟨[[1], [3]]⟩ = Result.ok ⟨[[1], [3]]⟩ ∧
    Chain.LastMatch ⟨[[1], [3]]⟩ ⟨[[1], [2]]⟩ = Result.ok ⟨[[1], [2]]⟩ ∧
    Chain.LastMatch ⟨[[1], [2]]⟩ ⟨[[1], [3]]⟩
      ≠ Result.ok ⟨([[1], [3]] : List Digest).drop 1⟩ ∧
    Chain.LastMatch ⟨[[1], [3]]⟩ ⟨[[1], [2]]⟩
      ≠ Result.ok ⟨([[1], [2]] : List Digest).drop 1⟩ := by
  decide

/-- C2: when chains `A` and `B` share a common prefix of `k ≥ 1` digests,
`A.FirstMatch(B)` returns no error and a chain whose digest sequence is the whole
digest sequence of `B`. -/
theorem C2_firstMatch_common_prefix_returns_whole (A B : Chain) (k : Nat) (hk : 1 ≤ k)
    (hA : k ≤ A.chain.length) (hB : k ≤ B.chain.length)
    (hpre : A.chain.take k = B.chain.take k) :
    A.FirstMatch B = Result.ok B := by
  rcases A with ⟨la⟩
  rcases B with ⟨lb⟩
  obtain ⟨k, rfl⟩ : ∃ j, k = j + 1 := ⟨k - 1, by omega⟩
  rcases la with _ | ⟨a, la⟩
  · simp at hA
  rcases lb with _ | ⟨b, lb⟩
  · simp at hB
  simp only [List.take_succ_cons, List.cons.injEq] at hpre
  obtain ⟨rfl, -⟩ := hpre
  have hsl := sliceFrom_natCast (a :: lb) 0 (Nat.zero_le _)
  simp only [Nat.cast_zero, List.drop_zero] at hsl
  simp [Chain.FirstMatch, firstMatchOuter, firstMatchInner, bytesEqual_self, hsl]

/-- Witness of C2 at `k = 2`: two chains sharing two digests, each followed by two
further digests of its own. -/
theorem C2_firstMatch_common_prefix_returns_whole_witness :
    Chain.FirstMatch ⟨[[1], [2], [3], [4]]⟩ ⟨[[1], [2], [5], [6]]⟩
      = Result.ok ⟨[[1], [2], [5], [6]]⟩ :=
  C2_firstMatch_common_prefix_returns_whole ⟨[[1], [2], [3], [4]]⟩ ⟨[[1], [2], [5], [6]]⟩ 2
    (by decide) (by decide) (by decide) (by decide)

/-- C3, as stated, fails at the empty receiver: every digest of the empty chain occurs
in the argument (there is none), yet `LastMatch` returns `ErrNoMatch`. -/
theorem C3_lastMatch_empty_receiver_is_noMatch :
    (∀ d ∈ (Chain.mk []).chain, occursIn d (Chain.mk [[1]]).chain = true) ∧
    Chain.LastMatch ⟨[]⟩ ⟨[[1]]⟩ = Result.error Error.ErrNoMatch ∧
    Chain.LastMatch ⟨[]⟩ ⟨[[1]]⟩ ≠ Result.ok ⟨[]⟩ := by
  decide

/-- C3 (amended): for every chain `c` holding at least one digest and every chain
`other`, if every digest of `c` is byte-equal to some digest of `other`, then
`c.LastMatch(other)` returns no error and a chain holding zero digests. -/
theorem C3_lastMatch_all_match_returns_empty (c other : Chain) (hne : c.chain ≠ [])
    (hall : ∀ d ∈ c.chain, occursIn d other.chain = true) :
    c.LastMatch other = Result.ok ⟨[]⟩ :=
  lastMatch_all_occur c other hne hall

/-- Witness of C3 (amended): the receiver `[[2],[1],[2]]` against `[[1],[2],[3]]`. -/
theorem C3_lastMatch_all_match_returns_empty_witness :
    Chain.LastMatch ⟨[[2], [1], [2]]⟩ ⟨[[1], [2], [3]]⟩ = Result.ok ⟨[]⟩ :=
  C3_lastMatch_all_match_returns_empty ⟨[[2], [1], [2]]⟩ ⟨[[1], [2], [3]]⟩
    (by decide) (by decide)

/-- C4: two chains holding the same non-empty digest sequence get the empty chain and
no error from `LastMatch`, in both directions. -/
theorem C4_lastMatch_identical_chains_empty (A B : Chain) (hsame : A.chain = B.chain)
    (hne : A.chain ≠ []) :
    A.LastMatch B = Result.ok ⟨[]⟩ ∧ B.LastMatch A = Result.ok ⟨[]⟩ := by
  constructor
  · refine lastMatch_all_occur A B hne (fun d hd => ?_)
    rw [occursIn_iff_mem, ← hsame]
    exact hd
  · refine lastMatch_all_occur B A (hsame ▸ hne) (fun d hd => ?_)
    rw [occursIn_iff_mem, hsame]
    exact hd

/-- Witness of C4: two chains both holding `[[1],[2]]`. -/
theorem C4_lastMatch_identical_chains_empty_witness :
    Chain.LastMatch ⟨[[1], [2]]⟩ ⟨[[1], [2]]⟩ = Result.ok ⟨[]⟩ ∧
    Chain.LastMatch ⟨[[1], [2]]⟩ ⟨[[1], [2]]⟩ = Result.ok ⟨[]⟩ :=
  C4_lastMatch_identical_chains_empty ⟨[[1], [2]]⟩ ⟨[[1], [2]]⟩ rfl (by decide)

/-- C5: `c.FirstMatch(other)` returns `ErrNoMatch` if and only if no digest of `c` is
byte-equal to any digest of `other`; in every other case it returns a chain and no
error. -/
theorem C5_firstMatch_noMatch_iff_nothing_shared (c other : Chain) :
    (c.FirstMatch other = Result.error Error.ErrNoMatch ↔
        ∀ d ∈ c.chain, occursIn d other.chain = false) ∧
      (c.FirstMatch other = Result.error Error.ErrNoMatch ∨
        ∃ r, c.FirstMatch other = Result.ok r) :=
  firstMatchOuter_spec other c.chain

/-- C6: `c.LastMatch(other)` returns `ErrNoMatch` if and only if no digest of `c` is
byte-equal to any digest of `other`; in every other case it returns a chain and no
error. -/
theorem C6_lastMatch_noMatch_iff_nothing_shared (c other : Chain) :
    (c.LastMatch other = Result.error Error.ErrNoMatch ↔
        ∀ d ∈ c.chain, occursIn d other.chain = false) ∧
      (c.LastMatch other = Result.error Error.ErrNoMatch ∨
        ∃ r, c.LastMatch other = Result.ok r) := by
  have h := lastMatchOuter_spec other c.chain false
  simp only [true_and] at h
  exact h

/-! ## Facts about the collaborators -/

set_option maxRecDepth 100000 in
/-- Decoding the two characters that encode a byte gives the byte back, and both
characters are lowercase hex digits. -/
theorem hex_byte_roundtrip : ∀ v : Byte,
    fromHexChar (hextable.getD (v.val >>> 4) '0') = some (v.val >>> 4) ∧
    fromHexChar (hextable.getD (v.val &&& 0x0f) '0') = some (v.val &&& 0x0f) ∧
    (Fin.ofNat (((v.val >>> 4) <<< 4) ||| (v.val &&& 0x0f)) : Byte) = v ∧
    isLowerHex (hextable.getD (v.val >>> 4) '0') = true ∧
    isLowerHex (hextable.getD (v.val &&& 0x0f) '0') = true := by
  decide

theorem Decode_Encode (l : List Byte) : Decode (Encode l) = some l := by
  induction l with
  | nil => rfl
  | cons v l ih =>
    obtain ⟨h1, h2, h3, -, -⟩ := hex_byte_roundtrip v
    simp only [Encode, Decode, h1, h2, ih, h3]

theorem Encode_lower (l : List Byte) : ∀ ch ∈ Encode l, isLowerHex ch = true := by
  induction l with
  | nil => simp [Encode]
  | cons v l ih =>
    obtain ⟨-, -, -, h4, h5⟩ := hex_byte_roundtrip v
    intro ch hch
    simp only [Encode, List.mem_cons] at hch
    rcases hch with rfl | rfl | hch
    · exact h4
    · exact h5
    · exact ih ch hch

theorem DecodeString_EncodeToString (l : List Byte) :
    DecodeString (EncodeToString l) = some l := by
  simp [DecodeString, EncodeToString, Decode_Encode]

theorem allSums_eq_map (c : Chain) : c.AllSums = c.chain.map EncodeToString := by
  have key : ∀ (l : List Digest) (acc : List String),
      l.foldl (fun res byt => res ++ [EncodeToString byt]) acc
        = acc ++ l.map EncodeToString := by
    intro l
    induction l with
    | nil => simp
    | cons a l ih =>
      intro acc
      simp [List.foldl_cons, ih]
  simpa [Chain.AllSums] using key c.chain []

/-- A turn of `io.Copy` into an accumulator: the block is absorbed whole. -/
theorem copyTurn_hash (h : Hash) (p : List Byte) (er : Option Error) :
    copyTurn Hash.Write h p er = (⟨h.algo, h.absorbed ++ p⟩, readVerdict er) := by
  by_cases hp : p.length > 0
  · simp [copyTurn, hp, Hash.Write]
  · have : p = [] := by
      cases p with
      | nil => rfl
      | cons a l => simp at hp
    subst this
    simp [copyTurn]

/-- Copying a stream into an accumulator: it absorbs what `io.ReadAll` would return,
and the copy returns the error `io.ReadAll` would return. -/
theorem ioCopy_hash (r : Reader) (h : Hash) :
    ioCopy Hash.Write h r = (⟨h.algo, h.absorbed ++ r.readAll.1⟩, r.readAll.2) := by
  induction r generalizing h with
  | nil => simp [ioCopy, Reader.readAll]
  | cons s rest ih =>
    rcases s with ⟨data, err⟩
    cases err with
    | none =>
      simp [ioCopy, copyTurn_hash, readVerdict, Reader.readAll, ih, List.append_assoc]
    | some e =>
      by_cases he : e = Error.EOF
      · simp [ioCopy, copyTurn_hash, readVerdict, Reader.readAll, he]
      · simp [ioCopy, copyTurn_hash, readVerdict, Reader.readAll, he]

/-- The tee reader hands the block on unchanged after the accumulator absorbed it. -/
theorem teeRead_eq (h : Hash) (p : List Byte) (er : Option Error) :
    teeRead h p er = (⟨h.algo, h.absorbed ++ p⟩, p, er) := by
  by_cases hp : p.length > 0
  · simp [teeRead, hp, Hash.Write]
  · have : p = [] := by
      cases p with
      | nil => rfl
      | cons a l => simp at hp
    subst this
    simp [teeRead]

/-- A turn of `io.Copy` into a sink: the block is written once; the sink either
accepts it whole or returns its error, and that error ends the copy. -/
theorem copyTurn_writer (w : Writer) (p : List Byte) (er : Option Error) :
    copyTurn Writer.Write w p er =
      if p.length > 0 then
        match w.faults with
        | some (n, e) :: fs => (⟨w.out ++ p.take n, fs⟩, some (some e))
        | none :: fs => (⟨w.out ++ p, fs⟩, readVerdict er)
        | [] => (⟨w.out ++ p, []⟩, readVerdict er)
      else (w, readVerdict er) := by
  rcases w with ⟨out, faults⟩
  by_cases hp : p.length > 0
  · rcases faults with _ | ⟨_ | ⟨n, e⟩, fs⟩ <;> simp [copyTurn, Writer.Write, hp]
  · simp [copyTurn, hp]

theorem failsWithin_zero (w : Writer) : w.failsWithin 0 = false := by
  simp [Writer.failsWithin]

theorem failsWithin_nil (out : List Byte) (n : Nat) :
    Writer.failsWithin ⟨out, []⟩ n = false := by
  simp [Writer.failsWithin]

theorem failsWithin_cons (out out1 : List Byte) (f : Option (Nat × Error))
    (fs : List (Option (Nat × Error))) (n : Nat) :
    Writer.failsWithin ⟨out, f :: fs⟩ (n + 1)
      = (f.isSome || Writer.failsWithin ⟨out1, fs⟩ n) := by
  simp [Writer.failsWithin]

/-- Copying a stream through a tee reader into a sink.  The copy returns no error
exactly when the stream ends without error and the sink accepts every block; then the
sink has received, and the accumulator has absorbed, what `io.ReadAll` would return. -/
theorem ioCopyTee_writer (r : Reader) (w : Writer) (h : Hash) :
    ((ioCopyTee Writer.Write w h r).2.2 = none ↔
        r.readAll.2 = none ∧ w.failsWithin r.chunks.length = false) ∧
      ((ioCopyTee Writer.Write w h r).2.2 = none →
        (ioCopyTee Writer.Write w h r).1.out = w.out ++ r.readAll.1 ∧
        (ioCopyTee Writer.Write w h r).2.1 = ⟨h.algo, h.absorbed ++ r.readAll.1⟩) := by
  induction r generalizing w h with
  | nil => simp [ioCopyTee, Reader.readAll, Reader.chunks, failsWithin_zero]
  | cons s rest ih =>
    rcases s with ⟨data, err⟩
    rcases w with ⟨out, faults⟩
    by_cases hp : data.length > 0
    · rcases faults with _ | ⟨_ | ⟨n, e⟩, fs⟩
      · cases err with
        | none =>
          have := ih ⟨out ++ data, []⟩ ⟨h.algo, h.absorbed ++ data⟩
          simp only [failsWithin_nil] at this
          simpa [ioCopyTee, teeRead_eq, copyTurn_writer, hp, readVerdict, Reader.readAll,
            Reader.chunks, failsWithin_nil, List.append_assoc] using this
        | some e =>
          by_cases he : e = Error.EOF <;>
            simp [ioCopyTee, teeRead_eq, copyTurn_writer, hp, readVerdict, Reader.readAll,
              Reader.chunks, failsWithin_nil, he]
      · cases err with
        | none =>
          have := ih ⟨out ++ data, fs⟩ ⟨h.algo, h.absorbed ++ data⟩
          simpa [ioCopyTee, teeRead_eq, copyTurn_writer, hp, readVerdict, Reader.readAll,
            Reader.chunks, failsWithin_cons out (out ++ data), List.append_assoc,
            Nat.add_comm 1] using this
        | some e =>
          by_cases he : e = Error.EOF <;>
            simp [ioCopyTee, teeRead_eq, copyTurn_writer, hp, readVerdict, Reader.readAll,
              Reader.chunks, failsWithin_cons out out, failsWithin_zero, he]
      · cases err with
        | none =>
          simp [ioCopyTee, teeRead_eq, copyTurn_writer, hp, readVerdict, Reader.readAll,
            Reader.chunks, failsWithin_cons out out, Nat.add_comm 1]
        | some e1 =>
          simp [ioCopyTee, teeRead_eq, copyTurn_writer, hp, readVerdict, Reader.readAll,
            Reader.chunks, failsWithin_cons out out]
    · have hd : data = [] := by
        cases data with
        | nil => rfl
        | cons a l => simp at hp
      subst hd
      cases err with
      | none =>
        have := ih ⟨out, faults⟩ ⟨h.algo, h.absorbed⟩
        simpa [ioCopyTee, teeRead_eq, copyTurn_writer, readVerdict, Reader.readAll,
          Reader.chunks] using this
      | some e =>
        by_cases he : e = Error.EOF <;>
          simp [ioCopyTee, teeRead_eq, copyTurn_writer, readVerdict, Reader.readAll,
            Reader.chunks, failsWithin_zero, he]

/-- What `Add` returns, in terms of what `io.ReadAll` would return on the stream. -/
theorem add_eq (c : Chain) (r : Reader) (h : Hash) :
    c.Add r h =
      match r.readAll.2 with
      | some err => ⟨c, "", some (Error.wrap "Could not digest reader" err)⟩
      | none =>
        ⟨⟨c.chain ++ [h.algo (h.absorbed ++ r.readAll.1)]⟩,
          EncodeToString (h.algo (h.absorbed ++ r.readAll.1)), none⟩ := by
  unfold Chain.Add
  rw [ioCopy_hash]
  rcases r.readAll with ⟨b, _ | e⟩ <;> simp [Hash.Sum]

/-- A failed `AddInline` returns the empty string and leaves the chain as it was. -/
theorem addInline_failed (c : Chain) (w : Writer) (r : Reader) (h : Hash)
    (hf : (ioCopyTee Writer.Write w h r).2.2 ≠ none) :
    (c.AddInline w r h).err ≠ none ∧ (c.AddInline w r h).sum = "" ∧
      (c.AddInline w r h).chain = c := by
  unfold Chain.AddInline
  rcases hres : ioCopyTee Writer.Write w h r with ⟨w1, h1, _ | e⟩
  · rw [hres] at hf
    exact absurd rfl hf
  · simp

/-- A successful `AddInline` appends the digest of what the accumulator absorbed. -/
theorem addInline_succeeded (c : Chain) (w : Writer) (r : Reader) (h : Hash)
    (hs : (ioCopyTee Writer.Write w h r).2.2 = none) :
    c.AddInline w r h =
      ⟨⟨c.chain ++ [(ioCopyTee Writer.Write w h r).2.1.Sum []]⟩,
        (ioCopyTee Writer.Write w h r).1,
        EncodeToString ((ioCopyTee Writer.Write w h r).2.1.Sum []), none⟩ := by
  unfold Chain.AddInline
  rcases hres : ioCopyTee Writer.Write w h r with ⟨w1, h1, _ | e⟩
  · rfl
  · rw [hres] at hs
    exact Option.noConfusion hs

theorem failsWithin_of_accepts (w : Writer) (n : Nat) (hsink : ∀ f ∈ w.faults, f = none) :
    w.failsWithin n = false := by
  simp only [Writer.failsWithin, List.any_eq_false]
  intro f hf
  rw [hsink f (List.mem_of_mem_take hf)]
  simp

/-- A successful ingestion call appends one digest and returns its hex encoding. -/
theorem ingest_run_ok (c : Chain) (op : Ingest) (hok : (op.run c).err = none) :
    ∃ d, (op.run c).chain.chain = c.chain ++ [d] ∧ (op.run c).sum = EncodeToString d := by
  cases op with
  | add r h =>
    simp only [Ingest.run, add_eq] at hok ⊢
    rcases hra : r.readAll with ⟨b, _ | e⟩
    · exact ⟨_, rfl, rfl⟩
    · rw [hra] at hok
      exact Option.noConfusion hok
  | addInline w r h =>
    by_cases hs : (ioCopyTee Writer.Write w h r).2.2 = none
    · simp only [Ingest.run, addInline_succeeded c w r h hs]
      exact ⟨_, rfl, rfl⟩
    · have := (addInline_failed c w r h hs).1
      exact absurd hok this

/-- A run of successful ingestion calls appends, in order, the digests whose hex
encodings the calls returned. -/
theorem runIngests_sums (ops : List Ingest) (c : Chain)
    (hok : ∀ p ∈ (runIngests c ops).2, p.2 = none) :
    (runIngests c ops).1.chain.map EncodeToString
        = c.chain.map EncodeToString ++ (runIngests c ops).2.map Prod.fst ∧
      (runIngests c ops).2.length = ops.length := by
  induction ops generalizing c with
  | nil => simp [runIngests]
  | cons op ops ih =>
    simp only [runIngests, List.mem_cons, forall_eq_or_imp] at hok
    obtain ⟨d, hd, hsum⟩ := ingest_run_ok c op hok.1
    obtain ⟨h1, h2⟩ := ih (op.run c).chain hok.2
    simp only [runIngests, List.map_cons, List.length_cons, h1, h2, hd, hsum,
      List.map_append, List.map_nil, List.append_assoc, List.singleton_append, and_self]

/-! ## Claims on ingestion and export -/

/-- C7: after any sequence of `N ≥ 0` successful ingestions (`Add` or `AddInline`) into
an initially empty chain, `AllSums` returns exactly `N` strings, the `i`-th being the
string the `i`-th ingestion returned, which is the hex encoding of the `i`-th digest. -/
theorem C7_allSums_lists_ingestions_in_order (ops : List Ingest)
    (hok : ∀ p ∈ (runIngests ⟨[]⟩ ops).2, p.2 = none) :
    (runIngests ⟨[]⟩ ops).1.AllSums.length = ops.length ∧
      (runIngests ⟨[]⟩ ops).1.AllSums = (runIngests ⟨[]⟩ ops).2.map Prod.fst ∧
      (runIngests ⟨[]⟩ ops).1.AllSums
        = (runIngests ⟨[]⟩ ops).1.chain.map EncodeToString := by
  obtain ⟨h1, h2⟩ := runIngests_sums ops ⟨[]⟩ hok
  simp only [List.map_nil, List.nil_append] at h1
  refine ⟨?_, ?_, allSums_eq_map _⟩
  · rw [allSums_eq_map, h1, List.length_map, h2]
  · rw [allSums_eq_map, h1]

/-- Witness of C7: an `Add` of the content `[1,2]` followed by an `AddInline` of the
content `[3]`, both with the toy algorithm. -/
theorem C7_allSums_lists_ingestions_in_order_witness :
    (runIngests ⟨[]⟩ [Ingest.add [⟨[1, 2], none⟩] (Hash.fresh toyAlgo),
        Ingest.addInline ⟨[], []⟩ [⟨[3], none⟩] (Hash.fresh toyAlgo)]).1.AllSums.length = 2 ∧
      (runIngests ⟨[]⟩ [Ingest.add [⟨[1, 2], none⟩] (Hash.fresh toyAlgo),
        Ingest.addInline ⟨[], []⟩ [⟨[3], none⟩] (Hash.fresh toyAlgo)]).1.AllSums
        = ["0203", "0103"] := by
  have h := C7_allSums_lists_ingestions_in_order
    [Ingest.add [⟨[1, 2], none⟩] (Hash.fresh toyAlgo),
      Ingest.addInline ⟨[], []⟩ [⟨[3], none⟩] (Hash.fresh toyAlgo)] (by decide)
  exact ⟨h.1, h.2.1.trans (by decide)⟩

/-- C8: when the stream delivers the content `b` without error and the accumulator is
fresh for the algorithm `H`, `Add` on a chain holding `s` returns no error and a
lowercase hex string that decodes to `H(b)`, and the chain then holds `s` followed by
the one digest `H(b)`. -/
theorem C8_add_returns_hex_digest_and_appends (c : Chain) (r : Reader) (b : List Byte)
    (H : List Byte → Digest) (hread : r.readAll = (b, none)) :
    (c.Add r (Hash.fresh H)).err = none ∧
      (c.Add r (Hash.fresh H)).sum = EncodeToString (H b) ∧
      DecodeString (c.Add r (Hash.fresh H)).sum = some (H b) ∧
      (∀ ch ∈ (c.Add r (Hash.fresh H)).sum.data, isLowerHex ch = true) ∧
      (c.Add r (Hash.fresh H)).chain.chain = c.chain ++ [H b] := by
  rw [add_eq, hread]
  exact ⟨rfl, rfl, DecodeString_EncodeToString _, Encode_lower _, rfl⟩

/-- Witness of C8: the content `[1,2,3]` delivered in two reads, digested by the toy
algorithm into a chain holding `[[9]]`. -/
theorem C8_add_returns_hex_digest_and_appends_witness :
    ((Chain.mk [[9]]).Add [⟨[1, 2], none⟩, ⟨[3], some Error.EOF⟩] (Hash.fresh toyAlgo)).sum
        = "0306" ∧
      ((Chain.mk [[9]]).Add [⟨[1, 2], none⟩, ⟨[3], some Error.EOF⟩]
        (Hash.fresh toyAlgo)).chain.chain = [[9], [3, 6]] := by
  have h := C8_add_returns_hex_digest_and_appends ⟨[[9]]⟩
    [⟨[1, 2], none⟩, ⟨[3], some Error.EOF⟩] [1, 2, 3] toyAlgo (by decide)
  exact ⟨h.2.1.trans (by decide), h.2.2.2.2.trans (by decide)⟩

/-- C9: if reading the stream fails during `Add`, or reading the stream or writing the
sink fails during `AddInline`, the call returns an error and the empty string, and the
chain holds exactly the digests it held before the call. -/
theorem C9_failed_ingestion_leaves_chain_unchanged (c : Chain) (w : Writer) (r : Reader)
    (h : Hash) :
    (r.readAll.2 ≠ none →
        (c.Add r h).err ≠ none ∧ (c.Add r h).sum = "" ∧ (c.Add r h).chain = c) ∧
      (r.readAll.2 ≠ none ∨ w.failsWithin r.chunks.length = true →
        (c.AddInline w r h).err ≠ none ∧ (c.AddInline w r h).sum = "" ∧
          (c.AddInline w r h).chain = c) := by
  constructor
  · intro hr
    rw [add_eq]
    rcases hra : r.readAll with ⟨b, _ | e⟩
    · rw [hra] at hr
      exact absurd rfl hr
    · simp
  · intro hf
    refine addInline_failed c w r h (fun hnone => ?_)
    have := (ioCopyTee_writer r w h).1.mp hnone
    rcases hf with hf | hf
    · exact hf this.1
    · rw [this.2] at hf
      exact Bool.noConfusion hf

/-- Witness of C9: a stream that fails after delivering `[1,2]`, and a sink that
rejects its second write. -/
theorem C9_failed_ingestion_leaves_chain_unchanged_witness :
    ((Chain.mk [[9]]).Add [⟨[1, 2], none⟩, ⟨[], some (Error.other "read")⟩]
        (Hash.fresh toyAlgo)).chain = ⟨[[9]]⟩ ∧
      ((Chain.mk [[9]]).AddInline ⟨[], [none, some (0, Error.other "full")]⟩
        [⟨[1, 2], none⟩, ⟨[3], none⟩] (Hash.fresh toyAlgo)).chain = ⟨[[9]]⟩ :=
  ⟨((C9_failed_ingestion_leaves_chain_unchanged ⟨[[9]]⟩ ⟨[], []⟩
      [⟨[1, 2], none⟩, ⟨[], some (Error.other "read")⟩] (Hash.fresh toyAlgo)).1
      (by decide)).2.2,
    ((C9_failed_ingestion_leaves_chain_unchanged ⟨[[9]]⟩
      ⟨[], [none, some (0, Error.other "full")]⟩ [⟨[1, 2], none⟩, ⟨[3], none⟩]
      (Hash.fresh toyAlgo)).2 (Or.inr (by decide))).2.2⟩

/-- C10: when the stream delivers the content `b` without error, the sink accepts all
writes and the accumulator is fresh for `H`, `AddInline` adds to the sink exactly the
bytes `b`, returns the hex string `Add` returns for `b` and `H`, and appends the same
single digest `H(b)` to the chain. -/
theorem C10_addInline_copies_stream_and_matches_add (c : Chain) (w : Writer) (r : Reader)
    (b : List Byte) (H : List Byte → Digest) (hread : r.readAll = (b, none))
    (hsink : ∀ f ∈ w.faults, f = none) :
    (c.AddInline w r (Hash.fresh H)).err = none ∧
      (c.AddInline w r (Hash.fresh H)).sink.out = w.out ++ b ∧
      (c.AddInline w r (Hash.fresh H)).sum = (c.Add r (Hash.fresh H)).sum ∧
      (c.AddInline w r (Hash.fresh H)).sum = EncodeToString (H b) ∧
      (c.AddInline w r (Hash.fresh H)).chain = (c.Add r (Hash.fresh H)).chain ∧
      (c.AddInline w r (Hash.fresh H)).chain.chain = c.chain ++ [H b] := by
  have hT := ioCopyTee_writer r w (Hash.fresh H)
  have hnone : (ioCopyTee Writer.Write w (Hash.fresh H) r).2.2 = none :=
    hT.1.mpr ⟨by rw [hread], failsWithin_of_accepts w _ hsink⟩
  obtain ⟨hout, hh⟩ := hT.2 hnone
  rw [hread] at hout hh
  rw [addInline_succeeded c w r _ hnone, add_eq, hread, hh]
  exact ⟨rfl, hout, rfl, rfl, rfl, rfl⟩

/-- Witness of C10: the content `[1,2,3]` delivered in two reads into an empty sink
that accepts every write. -/
theorem C10_addInline_copies_stream_and_matches_add_witness :
    ((Chain.mk [[9]]).AddInline ⟨[], [none]⟩ [⟨[1, 2], none⟩, ⟨[3], some Error.EOF⟩]
        (Hash.fresh toyAlgo)).sink.out = [1, 2, 3] ∧
      ((Chain.mk [[9]]).AddInline ⟨[], [none]⟩ [⟨[1, 2], none⟩, ⟨[3], some Error.EOF⟩]
        (Hash.fresh toyAlgo)).chain.chain = [[9], [3, 6]] := by
  have h := C10_addInline_copies_stream_and_matches_add ⟨[[9]]⟩ ⟨[], [none]⟩
    [⟨[1, 2], none⟩, ⟨[3], some Error.EOF⟩] [1, 2, 3] toyAlgo (by decide) (by decide)
  exact ⟨h.2.1, h.2.2.2.2.2.trans (by decide)⟩

/-! ## Claims on the aggregate digest -/

theorem readAll_bytesNewBuffer (b : List Byte) : (bytesNewBuffer b).readAll = (b, none) := by
  cases b with
  | nil => simp [bytesNewBuffer, Reader.readAll]
  | cons a l => simp [bytesNewBuffer, Reader.readAll]

/-- The loop of `Sum` never fails; the accumulator absorbs the digests one after the
other. -/
theorem sumLoop_eq (l : List Digest) (h : Hash) :
    sumLoop l h = (⟨h.algo, h.absorbed ++ l.flatten⟩, none) := by
  induction l generalizing h with
  | nil => simp [sumLoop]
  | cons a l ih =>
    simp [sumLoop, ioCopy_hash, readAll_bytesNewBuffer, ih, List.append_assoc]

/-- C11: for a chain holding `d1..dn` and a fresh accumulator for `H`, `Sum` returns no
error and the hex encoding of `H(d1 ++ ... ++ dn)`; hence a chain with the same digest
sequence returns the same `Sum`, and so does a second call on the same chain. -/
theorem C11_sum_is_hex_of_digest_of_concatenation (c : Chain) (H : List Byte → Digest) :
    (c.Sum (Hash.fresh H)).2 = none ∧
      (c.Sum (Hash.fresh H)).1 = EncodeToString (H c.chain.flatten) ∧
      (∀ c2 : Chain, c2.chain = c.chain → c2.Sum (Hash.fresh H) = c.Sum (Hash.fresh H)) := by
  refine ⟨?_, ?_, ?_⟩
  · simp [Chain.Sum, sumLoop_eq]
  · simp [Chain.Sum, sumLoop_eq, Hash.fresh, Hash.Sum]
  · intro c2 h2
    simp [Chain.Sum, h2]

/-- Witness of C11: the chain `[[5],[1],[6]]` under the toy algorithm, against a second
chain holding the same digests. -/
theorem C11_sum_is_hex_of_digest_of_concatenation_witness :
    (Chain.Sum ⟨[[5], [1], [6]]⟩ (Hash.fresh toyAlgo)).1 = "030c" ∧
      Chain.Sum ⟨[[5], [1]] ++ [[6]]⟩ (Hash.fresh toyAlgo)
        = Chain.Sum ⟨[[5], [1], [6]]⟩ (Hash.fresh toyAlgo) := by
  have h := C11_sum_is_hex_of_digest_of_concatenation ⟨[[5], [1], [6]]⟩ toyAlgo
  exact ⟨h.2.1.trans (by decide), h.2.2 ⟨[[5], [1]] ++ [[6]]⟩ (by decide)⟩

/-! ## Where `FirstMatch` cuts the argument chain -/

/-- A hit of the inner scan of `FirstMatch` splits the scanned digests: none before
the hit is byte-equal to `cbyt`, and the digest at the hit is. -/
theorem firstMatchInner_split (cbyt : Digest) (l : List Digest) (x i : Nat)
    (h : firstMatchInner cbyt l x = some i) :
    ∃ skipped e rest, l = skipped ++ e :: rest ∧ i = x + skipped.length ∧
      bytesEqual e cbyt = true ∧ ∀ f ∈ skipped, bytesEqual f cbyt = false := by
  induction l generalizing x with
  | nil => simp [firstMatchInner] at h
  | cons a l ih =>
    by_cases ha : bytesEqual a cbyt = true
    · simp only [firstMatchInner, ha, if_true, Option.some.injEq] at h
      exact ⟨[], a, l, rfl, by simp [h], ha, by simp⟩
    · simp only [Bool.not_eq_true] at ha
      simp only [firstMatchInner, ha, Bool.false_eq_true, if_false] at h
      obtain ⟨skipped, e, rest, hl, hi, he, hsk⟩ := ih (x + 1) h
      refine ⟨a :: skipped, e, rest, by simp [hl], by simp [hi]; omega, he, ?_⟩
      intro f hf
      rcases List.mem_cons.mp hf with rfl | hf
      · exact ha
      · exact hsk f hf

/-- A successful `FirstMatch` loop: the receiver's digests before `d` do not occur in
`c2`, `d` is the first that does, and the result is `c2` from the first digest
byte-equal to `d` on. -/
theorem firstMatchOuter_split (c2 : Chain) (l : List Digest) (res : Chain)
    (h : firstMatchOuter c2 l = Result.ok res) :
    ∃ pre d post skipped e rest, l = pre ++ d :: post ∧
      (∀ a ∈ pre, occursIn a c2.chain = false) ∧
      c2.chain = skipped ++ e :: rest ∧ res.chain = e :: rest ∧
      bytesEqual e d = true ∧ ∀ f ∈ skipped, bytesEqual f d = false := by
  induction l with
  | nil => simp [firstMatchOuter] at h
  | cons a l ih =>
    rcases hx : firstMatchInner a c2.chain 0 with _ | x
    · have hocc := (firstMatchInner_eq_none a c2.chain 0).mp hx
      simp only [firstMatchOuter, hx] at h
      obtain ⟨pre, d, post, skipped, e, rest, hl, hpre, hc2, hres, he, hsk⟩ := ih h
      refine ⟨a :: pre, d, post, skipped, e, rest, by simp [hl], ?_, hc2, hres, he, hsk⟩
      intro b hb
      rcases List.mem_cons.mp hb with rfl | hb
      · exact hocc
      · exact hpre b hb
    · obtain ⟨skipped, e, rest, hc2, hi, he, hsk⟩ := firstMatchInner_split a c2.chain 0 x hx
      have hlen : x ≤ c2.chain.length := by
        rw [hc2, hi]
        simp
      have hsl := sliceFrom_natCast c2.chain x hlen
      simp only [firstMatchOuter, hx, hsl, Result.ok.injEq] at h
      refine ⟨[], a, l, skipped, e, rest, rfl, by simp, hc2, ?_, he, hsk⟩
      rw [← h]
      simp only [hi, Nat.zero_add]
      rw [hc2, List.drop_left]

/-- C12, as stated, fails: with receiver `[[1],[2]]` and argument `[[2],[1]]` the
digest at index 0 of the argument is byte-equal to a digest of the receiver, yet
`FirstMatch` returns the argument from index 1 on. -/
theorem C12_firstMatch_not_least_index_of_argument :
    occursIn [2] (Chain.mk [[1], [2]]).chain = true ∧
      (Chain.mk [[2], [1]]).chain[0]? = some [2] ∧
      Chain.FirstMatch ⟨[[1], [2]]⟩ ⟨[[2], [1]]⟩ = Result.ok ⟨[[1]]⟩ ∧
      Chain.FirstMatch ⟨[[1], [2]]⟩ ⟨[[2], [1]]⟩
        ≠ Result.ok ⟨(Chain.mk [[2], [1]]).chain.drop 0⟩ := by
  decide

/-- C12 (amended): when `c.FirstMatch(other)` succeeds, the result is the suffix of
`other` starting at the earliest position of `other` whose digest is byte-equal to `d`,
the first digest of `c` (in the order of `c`) that occurs in `other`. -/
theorem C12_firstMatch_suffix_at_first_occurring_digest (c other res : Chain)
    (hok : c.FirstMatch other = Result.ok res) :
    ∃ pre d post skipped kept, c.chain = pre ++ d :: post ∧
      (∀ a ∈ pre, occursIn a other.chain = false) ∧
      other.chain = skipped ++ kept ∧ res.chain = kept ∧
      (∃ e rest, kept = e :: rest ∧ bytesEqual e d = true) ∧
      ∀ f ∈ skipped, bytesEqual f d = false := by
  obtain ⟨pre, d, post, skipped, e, rest, hl, hpre, hc2, hres, he, hsk⟩ :=
    firstMatchOuter_split other c.chain res hok
  exact ⟨pre, d, post, skipped, e :: rest, hl, hpre, hc2, hres, ⟨e, rest, rfl, he⟩, hsk⟩

/-- Witness of C12 (amended): receiver `[[1],[2]]` against `[[2],[1]]`. -/
theorem C12_firstMatch_suffix_at_first_occurring_digest_witness :
    ∃ pre d post skipped kept, (Chain.mk [[1], [2]]).chain = pre ++ d :: post ∧
      (∀ a ∈ pre, occursIn a (Chain.mk [[2], [1]]).chain = false) ∧
      (Chain.mk [[2], [1]]).chain = skipped ++ kept ∧ (Chain.mk [[1]]).chain = kept ∧
      (∃ e rest, kept = e :: rest ∧ bytesEqual e d = true) ∧
      ∀ f ∈ skipped, bytesEqual f d = false :=
  C12_firstMatch_suffix_at_first_occurring_digest ⟨[[1], [2]]⟩ ⟨[[2], [1]]⟩ ⟨[[1]]⟩
    (by decide)

/-- C13: when `c` and `other` share a digest, `c.FirstMatch(other)` returns `other[j:]`,
where `i` is the least index of `c` whose digest occurs in `other` and `j` is the least
index of `other` whose digest is byte-equal to `c[i]`. -/
theorem C13_firstMatch_receiver_outer_scan_order (c other : Chain)
    (hshare : ∃ d ∈ c.chain, occursIn d other.chain = true) :
    ∃ (i j : Nat) (d : Digest), c.chain[i]? = some d ∧
      (∀ i0 : Nat, i0 < i → ∀ d0 : Digest, c.chain[i0]? = some d0 → occursIn d0 other.chain = false) ∧
      (∃ e, other.chain[j]? = some e ∧ bytesEqual e d = true) ∧
      (∀ j0 : Nat, j0 < j → ∀ e0 : Digest, other.chain[j0]? = some e0 → bytesEqual e0 d = false) ∧
      c.FirstMatch other = Result.ok ⟨other.chain.drop j⟩ := by
  obtain ⟨herr, hor⟩ := firstMatchOuter_spec other c.chain
  have hne : firstMatchOuter other c.chain ≠ Result.error Error.ErrNoMatch := by
    intro hE
    obtain ⟨d, hd, hocc⟩ := hshare
    rw [herr.mp hE d hd] at hocc
    exact Bool.noConfusion hocc
  rcases hor with hE | ⟨res, hres⟩
  · exact absurd hE hne
  obtain ⟨pre, d, post, skipped, e, rest, hl, hpre, hc2, hrc, he, hsk⟩ :=
    firstMatchOuter_split other c.chain res hres
  refine ⟨pre.length, skipped.length, d, ?_, ?_, ⟨e, ?_, he⟩, ?_, ?_⟩
  · rw [hl, List.getElem?_append_right (le_refl _)]
    simp
  · intro i0 hi0 d0 hd0
    rw [hl, List.getElem?_append_left hi0] at hd0
    exact hpre d0 (List.getElem?_mem hd0)
  · rw [hc2, List.getElem?_append_right (le_refl _)]
    simp
  · intro j0 hj0 e0 he0
    rw [hc2, List.getElem?_append_left hj0] at he0
    exact hsk e0 (List.getElem?_mem he0)
  · unfold Chain.FirstMatch
    rw [hres, hc2, List.drop_left]
    rcases res with ⟨rc⟩
    simp only at hrc
    rw [hrc]

/-- Witness of C13: receiver `[[7],[1],[2]]` against `[[2],[1],[3]]`: the result is the
argument from index 1 on. -/
theorem C13_firstMatch_receiver_outer_scan_order_witness :
    ∃ (i j : Nat) (d : Digest), (Chain.mk [[7], [1], [2]]).chain[i]? = some d ∧
      (∀ i0 : Nat, i0 < i → ∀ d0 : Digest, (Chain.mk [[7], [1], [2]]).chain[i0]? = some d0 →
        occursIn d0 (Chain.mk [[2], [1], [3]]).chain = false) ∧
      (∃ e, (Chain.mk [[2], [1], [3]]).chain[j]? = some e ∧ bytesEqual e d = true) ∧
      (∀ j0 : Nat, j0 < j → ∀ e0 : Digest, (Chain.mk [[2], [1], [3]]).chain[j0]? = some e0 →
        bytesEqual e0 d = false) ∧
      Chain.FirstMatch ⟨[[7], [1], [2]]⟩ ⟨[[2], [1], [3]]⟩
        = Result.ok ⟨(Chain.mk [[2], [1], [3]]).chain.drop j⟩ :=
  C13_firstMatch_receiver_outer_scan_order ⟨[[7], [1], [2]]⟩ ⟨[[2], [1], [3]]⟩
    ⟨[1], by decide, by decide⟩

/-! ## What `LastMatch` returns -/

/-- After a match, an empty result against a non-empty `c2` means that no remaining
digest of the receiver missed. -/
theorem lastMatchOuter_empty_after_match (c2 : Chain) (l : List Digest)
    (hne : c2.chain ≠ []) (h : lastMatchOuter c2 l true = Result.ok ⟨[]⟩) :
    ∀ d ∈ l, occursIn d c2.chain = true := by
  induction l with
  | nil => simp
  | cons a l ih =>
    rw [lastMatchOuter_cons] at h
    by_cases hocc : occursIn a c2.chain = true
    · rw [if_pos hocc] at h
      intro d hd
      rcases List.mem_cons.mp hd with rfl | hd
      · exact hocc
      · exact ih h d hd
    · rw [if_neg hocc] at h
      simp only [if_true, Result.ok.injEq, Chain.mk.injEq, List.drop_eq_nil_iff] at h
      have : c2.chain.length ≠ 0 := fun h0 => hne (List.length_eq_zero.mp h0)
      omega

/-- An empty result of the `LastMatch` loop started with `everEqual = false`: the
receiver splits into digests that do not occur in `c2`, then a first one that does,
then digests that all occur in `c2`. -/
theorem lastMatchOuter_empty_split (c2 : Chain) (l : List Digest)
    (h : lastMatchOuter c2 l false = Result.ok ⟨[]⟩) :
    ∃ pre d post, l = pre ++ d :: post ∧ (∀ a ∈ pre, occursIn a c2.chain = false) ∧
      occursIn d c2.chain = true ∧ ∀ b ∈ post, occursIn b c2.chain = true := by
  induction l with
  | nil => simp [lastMatchOuter] at h
  | cons a l ih =>
    rw [lastMatchOuter_cons] at h
    by_cases hocc : occursIn a c2.chain = true
    · rw [if_pos hocc] at h
      have hne : c2.chain ≠ [] := by
        intro h0
        rw [h0] at hocc
        simp [occursIn] at hocc
      exact ⟨[], a, l, rfl, by simp, hocc, lastMatchOuter_empty_after_match c2 l hne h⟩
    · rw [if_neg hocc] at h
      simp only [Bool.false_eq_true, if_false] at h
      obtain ⟨pre, d, post, hl, hpre, hd, hpost⟩ := ih h
      simp only [Bool.not_eq_true] at hocc
      refine ⟨a :: pre, d, post, by simp [hl], ?_, hd, hpost⟩
      intro b hb
      rcases List.mem_cons.mp hb with rfl | hb
      · exact hocc
      · exact hpre b hb

/-- Every chain the `LastMatch` loop returns is a suffix of `c2`. -/
theorem lastMatchOuter_suffix (c2 : Chain) (l : List Digest) (ev : Bool) (res : Chain)
    (h : lastMatchOuter c2 l ev = Result.ok res) : res.chain <:+ c2.chain := by
  induction l generalizing ev with
  | nil =>
    cases ev
    · simp [lastMatchOuter] at h
    · simp only [lastMatchOuter, Bool.not_true, Bool.false_eq_true, if_false,
        Result.ok.injEq] at h
      rw [← h]
      exact List.nil_suffix
  | cons a l ih =>
    rw [lastMatchOuter_cons] at h
    by_cases hocc : occursIn a c2.chain = true
    · rw [if_pos hocc] at h
      exact ih true h
    · rw [if_neg hocc] at h
      cases ev with
      | true =>
        simp only [if_true, Result.ok.injEq] at h
        rw [← h]
        exact List.drop_suffix _ _
      | false =>
        simp only [Bool.false_eq_true, if_false] at h
        exact ih false h

/-- After a match, a remaining digest that occurs nowhere in `c2` makes the loop
return the last two digests of `c2`. -/
theorem lastMatchOuter_miss_after_match (c2 : Chain) (l : List Digest) (x : Digest)
    (hx : x ∈ l) (hxo : occursIn x c2.chain = false) :
    lastMatchOuter c2 l true = Result.ok ⟨c2.chain.drop (c2.chain.length - 2)⟩ := by
  induction l with
  | nil => simp at hx
  | cons a l ih =>
    rw [lastMatchOuter_cons]
    by_cases hocc : occursIn a c2.chain = true
    · rw [if_pos hocc]
      rcases List.mem_cons.mp hx with rfl | hx
      · rw [hxo] at hocc
        exact Bool.noConfusion hocc
      · exact ih hx
    · rw [if_neg hocc]
      simp

/-- A match followed later by a digest that occurs nowhere in `c2` makes the loop
return the last two digests of `c2`, whatever came before the match. -/
theorem lastMatchOuter_match_then_miss (c2 : Chain) (l1 l2 : List Digest) (m x : Digest)
    (ev : Bool) (hm : occursIn m c2.chain = true) (hx : x ∈ l2)
    (hxo : occursIn x c2.chain = false) :
    lastMatchOuter c2 (l1 ++ m :: l2) ev
      = Result.ok ⟨c2.chain.drop (c2.chain.length - 2)⟩ := by
  induction l1 generalizing ev with
  | nil =>
    rw [List.nil_append, lastMatchOuter_cons, if_pos hm]
    exact lastMatchOuter_miss_after_match c2 l2 x hx hxo
  | cons a l1 ih =>
    rw [List.cons_append, lastMatchOuter_cons]
    by_cases hocc : occursIn a c2.chain = true
    · rw [if_pos hocc]
      exact ih true
    · rw [if_neg hocc]
      cases ev with
      | true => simp
      | false =>
        simp only [Bool.false_eq_true, if_false]
        exact ih false

/-- The variable `idx` after any inner scan of `LastMatch` started at `0, 0` is an
index of `c2` (or `0` when `c2` is empty). -/
theorem lastMatchInner_snd_range (cbyt : Digest) (l : List Digest) (x : Nat) (idx : Int) :
    (lastMatchInner cbyt l x idx).2 = idx ∨
      ((x : Int) ≤ (lastMatchInner cbyt l x idx).2 ∧
        (lastMatchInner cbyt l x idx).2 < (x : Int) + (l.length : Int)) := by
  induction l generalizing x idx with
  | nil => simp [lastMatchInner]
  | cons a l ih =>
    by_cases ha : bytesEqual a cbyt = true
    · simp [lastMatchInner, ha]
    · simp only [Bool.not_eq_true] at ha
      simp only [lastMatchInner, ha, Bool.false_eq_true, if_false, List.length_cons]
      right
      rcases ih (x + 1) (x : Int) with h | h
      · rw [h]
        push_cast
        omega
      · push_cast at h ⊢
        omega

/-! ## Claims on the results of the comparison operations -/

/-- C14: the claim says that an empty result of `LastMatch` without error means every
digest of `c` matched.  The receiver `[[9],[1]]` against `[[1]]` gets no error and the
empty chain from the final return (commented "all match" in the source), although its
digest `[9]` occurs nowhere in the argument. -/
theorem C14_lastMatch_empty_result_with_unmatched_leading_digest :
    Chain.LastMatch ⟨[[9], [1]]⟩ ⟨[[1]]⟩ = Result.ok ⟨[]⟩ ∧
      [9] ∈ (Chain.mk [[9], [1]]).chain ∧
      occursIn [9] (Chain.mk [[1]]).chain = false := by
  decide

/-- C15: whenever `FirstMatch` or `LastMatch` returns without error, the digests of the
returned chain are the last `m` digests of `other`, in order, for some
`0 ≤ m ≤ len(other)`; for `FirstMatch` the suffix is non-empty and its first digest is
byte-equal to some digest of `c`. -/
theorem C15_match_results_are_suffixes_of_argument (c other res : Chain) :
    (c.FirstMatch other = Result.ok res →
        res.chain <:+ other.chain ∧ res.chain.length ≤ other.chain.length ∧
        res.chain = other.chain.drop (other.chain.length - res.chain.length) ∧
        ∃ e rest, res.chain = e :: rest ∧ ∃ d ∈ c.chain, bytesEqual e d = true) ∧
      (c.LastMatch other = Result.ok res →
        res.chain <:+ other.chain ∧ res.chain.length ≤ other.chain.length ∧
        res.chain = other.chain.drop (other.chain.length - res.chain.length)) := by
  constructor
  · intro hok
    obtain ⟨pre, d, post, skipped, e, rest, hl, -, hc2, hres, he, -⟩ :=
      firstMatchOuter_split other c.chain res hok
    have hsuf : res.chain <:+ other.chain := by
      rw [hres, hc2]
      exact List.suffix_append skipped (e :: rest)
    refine ⟨hsuf, hsuf.length_le, List.suffix_iff_eq_drop.mp hsuf, e, rest, hres, d, ?_, he⟩
    rw [hl]
    simp
  · intro hok
    have hsuf := lastMatchOuter_suffix other c.chain false res hok
    exact ⟨hsuf, hsuf.length_le, List.suffix_iff_eq_drop.mp hsuf⟩

/-- Witness of C15: receiver `[[1],[9]]` against `[[5],[1],[7]]`; both operations return
the last two digests of the argument. -/
theorem C15_match_results_are_suffixes_of_argument_witness :
    (Chain.mk [[1], [7]]).chain <:+ (Chain.mk [[5], [1], [7]]).chain ∧
      (Chain.mk [[1], [7]]).chain.length ≤ (Chain.mk [[5], [1], [7]]).chain.length :=
  ⟨((C15_match_results_are_suffixes_of_argument ⟨[[1], [9]]⟩ ⟨[[5], [1], [7]]⟩
      ⟨[[1], [7]]⟩).1 (by decide)).1,
    ((C15_match_results_are_suffixes_of_argument ⟨[[1], [9]]⟩ ⟨[[5], [1], [7]]⟩
      ⟨[[1], [7]]⟩).2 (by decide)).2.1⟩

/-- C17: the slice bounds used by `FirstMatch` (`other[x:]`) and by `LastMatch`
(`other[idx-1:]`, taken when `idx != 0`) lie within `0..len(other)`, so neither
operation aborts on a slice out of range: each ends with a chain or with `ErrNoMatch`. -/
theorem C17_match_slices_in_range_no_abort (c other : Chain) :
    (∀ (cbyt : Digest) (x : Nat), firstMatchInner cbyt other.chain 0 = some x →
        0 ≤ (x : Int) ∧ (x : Int) ≤ (other.chain.length : Int)) ∧
      (∀ cbyt : Digest, (lastMatchInner cbyt other.chain 0 0).2 ≠ 0 →
        0 ≤ (lastMatchInner cbyt other.chain 0 0).2 - 1 ∧
        (lastMatchInner cbyt other.chain 0 0).2 - 1 ≤ (other.chain.length : Int)) ∧
      c.FirstMatch other ≠ Result.outOfRange ∧
      c.LastMatch other ≠ Result.outOfRange ∧
      (c.FirstMatch other = Result.error Error.ErrNoMatch ∨
        ∃ r, c.FirstMatch other = Result.ok r) ∧
      (c.LastMatch other = Result.error Error.ErrNoMatch ∨
        ∃ r, c.LastMatch other = Result.ok r) := by
  have hF := (firstMatchOuter_spec other c.chain).2
  have hL := (lastMatchOuter_spec other c.chain false).2
  refine ⟨?_, ?_, ?_, ?_, hF, hL⟩
  · intro cbyt x hx
    have := firstMatchInner_bounds cbyt other.chain 0 x hx
    constructor
    · exact Int.ofNat_nonneg x
    · exact_mod_cast (by omega : x ≤ other.chain.length)
  · intro cbyt hne
    rcases lastMatchInner_snd_range cbyt other.chain 0 0 with h | h
    · exact absurd h hne
    · push_cast at h
      omega
  · intro hbad
    unfold Chain.FirstMatch at hbad
    rcases hF with h | ⟨r, h⟩ <;> rw [h] at hbad <;> exact Result.noConfusion hbad
  · intro hbad
    unfold Chain.LastMatch at hbad
    rcases hL with h | ⟨r, h⟩ <;> rw [h] at hbad <;> exact Result.noConfusion hbad

/-- Witness of C17: against the argument `[[5],[1],[7]]` a hit of `[1]` is at index 1,
and after a miss `idx - 1 = 1`; both are within `0..3`. -/
theorem C17_match_slices_in_range_no_abort_witness :
    (0 ≤ ((1 : Nat) : Int) ∧ ((1 : Nat) : Int) ≤ ((Chain.mk [[5], [1], [7]]).chain.length : Int)) ∧
      (0 ≤ (lastMatchInner [9] (Chain.mk [[5], [1], [7]]).chain 0 0).2 - 1 ∧
        (lastMatchInner [9] (Chain.mk [[5], [1], [7]]).chain 0 0).2 - 1
          ≤ ((Chain.mk [[5], [1], [7]]).chain.length : Int)) :=
  ⟨(C17_match_slices_in_range_no_abort ⟨[[1], [9]]⟩ ⟨[[5], [1], [7]]⟩).1 [1] 1 (by decide),
    (C17_match_slices_in_range_no_abort ⟨[[1], [9]]⟩ ⟨[[5], [1], [7]]⟩).2.1 [9] (by decide)⟩

/-- C18: when some digest of `c` occurs in `other` and a later digest of `c` occurs
nowhere in `other`, `c.LastMatch(other)` returns exactly the last `min(2, len(other))`
digests of `other`, wherever the match was found. -/
theorem C18_lastMatch_returns_last_two_of_argument (c other : Chain)
    (l1 l2 : List Digest) (m x : Digest) (hc : c.chain = l1 ++ m :: l2)
    (hm : occursIn m other.chain = true) (hx : x ∈ l2)
    (hxo : occursIn x other.chain = false) :
    c.LastMatch other
        = Result.ok ⟨other.chain.drop (other.chain.length - min 2 other.chain.length)⟩ ∧
      (other.chain.drop (other.chain.length - min 2 other.chain.length)).length
        = min 2 other.chain.length := by
  have hidx : other.chain.length - min 2 other.chain.length = other.chain.length - 2 := by
    omega
  constructor
  · unfold Chain.LastMatch
    rw [hc, hidx]
    exact lastMatchOuter_match_then_miss other l1 l2 m x false hm hx hxo
  · rw [List.length_drop]
    omega

/-- Witness of C18: receiver `[[8],[1],[9]]` against `[[1],[5],[6],[7]]`: the match is
at index 0 of the argument and the result is its last two digests. -/
theorem C18_lastMatch_returns_last_two_of_argument_witness :
    Chain.LastMatch ⟨[[8], [1], [9]]⟩ ⟨[[1], [5], [6], [7]]⟩ = Result.ok ⟨[[6], [7]]⟩ :=
  (C18_lastMatch_returns_last_two_of_argument ⟨[[8], [1], [9]]⟩ ⟨[[1], [5], [6], [7]]⟩
    [[8]] [[9]] [1] [9] rfl (by decide) (by decide) (by decide)).1

/-! ## Facts about the storage -/

/-- Overwriting a cell outside a window of a list leaves the window as it was. -/
theorem window_set_outside {α : Type} (A : List α) (i off len : Nat) (d : α)
    (h : i < off ∨ off + len ≤ i) :
    ((A.set i d).drop off).take len = (A.drop off).take len := by
  apply List.ext_getElem?
  intro k
  by_cases hk : k < len
  · rw [List.getElem?_take_of_lt hk, List.getElem?_take_of_lt hk, List.getElem?_drop,
      List.getElem?_drop, List.getElem?_set_ne (by omega)]
  · rw [List.getElem?_take_eq_none (by omega), List.getElem?_take_eq_none (by omega)]

/-- Overwriting the cell right after a window and widening the window by one appends
the new element. -/
theorem window_set_end {α : Type} (A : List α) (off len : Nat) (d : α)
    (h : off + len < A.length) :
    ((A.set (off + len) d).drop off).take (len + 1) = (A.drop off).take len ++ [d] := by
  apply List.ext_getElem?
  intro k
  have hlen : ((A.drop off).take len).length = len := by
    rw [List.length_take, List.length_drop]
    omega
  by_cases hk : k < len
  · rw [List.getElem?_take_of_lt (by omega), List.getElem?_drop,
      List.getElem?_set_ne (by omega), List.getElem?_append_left (by omega),
      List.getElem?_take_of_lt hk, List.getElem?_drop]
  · by_cases hk2 : k = len
    · subst hk2
      rw [List.getElem?_take_of_lt (by omega), List.getElem?_drop,
        List.getElem?_set_self (by omega), List.getElem?_append_right (by omega), hlen]
      simp
    · rw [List.getElem?_take_eq_none (by omega),
        List.getElem?_append_right (by omega), hlen]
      obtain ⟨j, hj⟩ : ∃ j, k - len = j + 1 := ⟨k - len - 1, by omega⟩
      rw [hj]
      simp

theorem getD_set_ne {α : Type} (l : List (List α)) (j k : Nat) (a : List α) (h : k ≠ j) :
    (l.set j a).getD k [] = l.getD k [] := by
  simp [List.getD_eq_getElem?_getD, List.getElem?_set_ne (Ne.symm h)]

theorem getD_set_self {α : Type} (l : List (List α)) (j : Nat) (a : List α)
    (h : j < l.length) : (l.set j a).getD j [] = a := by
  simp [List.getD_eq_getElem?_getD, List.getElem?_set_self, h]

theorem getD_append_lt {α : Type} (l : List (List α)) (k : Nat) (a : List α)
    (h : k < l.length) : (l ++ [a]).getD k [] = l.getD k [] := by
  simp [List.getD_eq_getElem?_getD, List.getElem?_append_left h]

theorem getD_append_length {α : Type} (l : List (List α)) (a : List α) :
    (l ++ [a]).getD l.length [] = a := by
  simp [List.getD_eq_getElem?_getD]

theorem getD_beyond {α : Type} (l : List (List α)) (k : Nat) (h : l.length ≤ k) :
    l.getD k [] = [] := by
  simp [List.getD_eq_getElem?_getD, List.getElem?_eq_none h]

/-- The elements of a slice value depend on the arrays only. -/
theorem elems_of_arrays_eq (st1 st2 : Store) (s : SliceHdr) (h : st1.arrays = st2.arrays) :
    st1.elems s = st2.elems s := by
  simp [Store.elems, h]

theorem okHdr_iff (st : Store) (s : SliceHdr) :
    st.okHdr s = true ↔
      s.len ≤ s.cap ∧ s.off + s.cap ≤ (st.arrays.getD s.arr []).length := by
  simp [Store.okHdr]

/-- In a well-formed store every chain object holds a slice value within its array. -/
theorem wf_hdr (st : Store) (hwf : st.wf = true) (q : Nat) (hq : q < st.chains.length) :
    st.okHdr (st.hdr q) = true := by
  simp only [Store.wf, List.all_eq_true] at hwf
  apply hwf
  simp only [Store.hdr, List.getD_eq_getElem?_getD, List.getElem?_eq_getElem hq,
    Option.getD_some]
  exact List.getElem_mem hq

theorem elems_length (st : Store) (s : SliceHdr) (hok : st.okHdr s = true) :
    (st.elems s).length = s.len := by
  rw [okHdr_iff] at hok
  simp only [Store.elems, List.length_take, List.length_drop]
  omega

theorem append_chains (grow : Nat → Nat) (st : Store) (s : SliceHdr) (d : Digest) :
    (st.append grow s d).1.chains = st.chains := by
  unfold Store.append
  split <;> rfl

/-- After `append(s, d)` the returned slice value holds the elements of `s` and `d`. -/
theorem append_elems_self (grow : Nat → Nat) (st : Store) (s : SliceHdr) (d : Digest)
    (hok : st.okHdr s = true) :
    (st.append grow s d).1.elems (st.append grow s d).2 = st.elems s ++ [d] := by
  have hlen := elems_length st s hok
  rw [okHdr_iff] at hok
  unfold Store.append
  by_cases hcap : s.len < s.cap
  · have harr : s.arr < st.arrays.length := by
      by_contra hge
      rw [getD_beyond st.arrays s.arr (by omega)] at hok
      simp at hok
      omega
    simp only [hcap, if_true, Store.elems, getD_set_self _ _ _ harr]
    exact window_set_end _ _ _ _ (by omega)
  · have key : ∀ (E rep : List Digest), E.length = s.len →
        List.take (s.len + 1) (E ++ d :: rep) = E ++ [d] := by
      intro E rep hE
      rw [show E ++ d :: rep = (E ++ [d]) ++ rep by simp]
      exact List.take_left' (by simp [hE])
    simp only [hcap, if_false, Store.elems, getD_append_length, List.drop_zero]
    exact key _ _ (by simpa [Store.elems] using hlen)

/-- After `append(s, d)` a slice value `q` holds what it held, unless the cell
overwritten in place lies in its window. -/
theorem append_elems_other (grow : Nat → Nat) (st : Store) (s q : SliceHdr) (d : Digest)
    (hq : st.okHdr q = true)
    (hout : ¬ (s.len < s.cap ∧ q.arr = s.arr ∧ q.off ≤ s.off + s.len ∧
      s.off + s.len < q.off + q.len)) :
    (st.append grow s d).1.elems q = st.elems q := by
  rw [okHdr_iff] at hq
  unfold Store.append
  by_cases hcap : s.len < s.cap
  · simp only [hcap, if_true, Store.elems]
    by_cases harr : q.arr = s.arr
    · by_cases hin : s.arr < st.arrays.length
      · rw [harr, getD_set_self _ _ _ hin]
        exact window_set_outside _ _ _ _ _ (by omega)
      · rw [List.set_eq_of_length_le (by omega)]
    · rw [getD_set_ne _ _ _ _ harr]
  · simp only [hcap, if_false, Store.elems]
    by_cases hin : q.arr < st.arrays.length
    · rw [getD_append_lt _ _ _ hin]
    · rw [getD_beyond st.arrays q.arr (by omega)] at hq ⊢
      simp only [List.length_nil, Nat.le_zero_eq, Nat.add_eq_zero] at hq
      have : q.len = 0 := by omega
      simp [this]

/-- The receiver of `c.chain = append(c.chain, d)` holds one more digest, `d`, at the
end. -/
theorem appendTo_digests_self (grow : Nat → Nat) (st : Store) (c : Nat) (d : Digest)
    (hwf : st.wf = true) (hc : c < st.chains.length) :
    (st.appendTo grow c d).digests c = st.digests c ++ [d] := by
  have hok := wf_hdr st hwf c hc
  have hself := append_elems_self grow st (st.hdr c) d hok
  have hc2 : c < (st.append grow (st.hdr c) d).1.chains.length := by
    rw [append_chains]
    exact hc
  simp only [Store.digests, Store.appendTo]
  have hh : ((st.append grow (st.hdr c) d).1.setChain c (st.append grow (st.hdr c) d).2).hdr c
      = (st.append grow (st.hdr c) d).2 := by
    show (List.set _ c _).getD c SliceHdr.null = _
    rw [List.getD_eq_getElem?_getD, List.getElem?_set_self hc2]
    rfl
  rw [hh, ← hself]
  exact elems_of_arrays_eq _ _ _ rfl

/-- Another chain holds what it held after `c.chain = append(c.chain, d)`, unless the
cell overwritten in place is one of its elements. -/
theorem appendTo_digests_other (grow : Nat → Nat) (st : Store) (c q : Nat) (d : Digest)
    (hwf : st.wf = true) (hq : q < st.chains.length) (hne : q ≠ c)
    (hout : st.writesInto c q = false) :
    (st.appendTo grow c d).digests q = st.digests q := by
  have hok := wf_hdr st hwf q hq
  have hh : ((st.append grow (st.hdr c) d).1.setChain c (st.append grow (st.hdr c) d).2).hdr q
      = st.hdr q := by
    show (List.set _ c _).getD q SliceHdr.null = st.chains.getD q SliceHdr.null
    rw [List.getD_eq_getElem?_getD, List.getElem?_set_ne (Ne.symm hne), append_chains,
      List.getD_eq_getElem?_getD]
  have hother := append_elems_other grow st (st.hdr c) (st.hdr q) d hok (by
    intro ⟨h1, h2, h3, h4⟩
    simp [Store.writesInto, h1, h2, h3, h4] at hout)
  simp only [Store.digests, Store.appendTo]
  rw [hh, ← hother]
  exact elems_of_arrays_eq _ _ _ rfl

theorem okHdr_null (st : Store) : st.okHdr SliceHdr.null = true := by
  simp [Store.okHdr, SliceHdr.null]

/-- The slice value of any pointer of a well-formed store lies within its array (a
pointer to no chain object reads as the nil slice). -/
theorem wf_hdr_any (st : Store) (hwf : st.wf = true) (c : Nat) :
    st.okHdr (st.hdr c) = true := by
  by_cases hc : c < st.chains.length
  · exact wf_hdr st hwf c hc
  · have : st.hdr c = SliceHdr.null := by
      simp [Store.hdr, List.getD_eq_getElem?_getD, List.getElem?_eq_none (Nat.le_of_not_lt hc)]
    rw [this]
    exact okHdr_null st

/-- A slice value that lies within its array still does when no array got shorter. -/
theorem okHdr_mono (st st2 : Store) (q : SliceHdr)
    (hlen : ∀ k, (st.arrays.getD k []).length ≤ (st2.arrays.getD k []).length)
    (hq : st.okHdr q = true) : st2.okHdr q = true := by
  rw [okHdr_iff] at hq ⊢
  have := hlen q.arr
  omega

/-- The call `append` makes no array shorter. -/
theorem append_arrays_length (grow : Nat → Nat) (st : Store) (s : SliceHdr) (d : Digest)
    (k : Nat) :
    (st.arrays.getD k []).length ≤ ((st.append grow s d).1.arrays.getD k []).length := by
  unfold Store.append
  by_cases hcap : s.len < s.cap
  · simp only [hcap, if_true]
    by_cases hk : k = s.arr
    · rw [hk]
      by_cases hin : s.arr < st.arrays.length
      · rw [getD_set_self _ _ _ hin, List.length_set]
      · rw [List.set_eq_of_length_le (by omega)]
    · rw [getD_set_ne _ _ _ _ hk]
  · simp only [hcap, if_false]
    by_cases hin : k < st.arrays.length
    · rw [getD_append_lt _ _ _ hin]
    · rw [getD_beyond st.arrays k (by omega)]
      simp

/-- The slice value that `append` returns lies within its array. -/
theorem append_okHdr (grow : Nat → Nat) (st : Store) (s : SliceHdr) (d : Digest)
    (hok : st.okHdr s = true) :
    (st.append grow s d).1.okHdr (st.append grow s d).2 = true := by
  have hmono := append_arrays_length grow st s d s.arr
  have hlen := elems_length st s hok
  rw [okHdr_iff] at hok ⊢
  unfold Store.append at hmono ⊢
  by_cases hcap : s.len < s.cap
  · simp only [hcap, if_true] at hmono ⊢
    omega
  · simp only [hcap, if_false, getD_append_length, List.length_append, List.length_cons,
      List.length_replicate, hlen]
    omega

/-- The statement `c.chain = append(c.chain, d)` keeps the store well-formed. -/
theorem appendTo_wf (grow : Nat → Nat) (st : Store) (c : Nat) (d : Digest)
    (hwf : st.wf = true) : (st.appendTo grow c d).wf = true := by
  have hnew := append_okHdr grow st (st.hdr c) d (wf_hdr_any st hwf c)
  simp only [Store.wf, List.all_eq_true] at hwf ⊢
  intro q hq
  have hq2 : q ∈ (st.append grow (st.hdr c) d).1.chains.set c (st.append grow (st.hdr c) d).2 :=
    hq
  rcases List.mem_or_eq_of_mem_set hq2 with hold | hnewq
  · rw [append_chains] at hold
    exact okHdr_mono st _ q (append_arrays_length grow st (st.hdr c) d) (hwf q hold)
  · rw [hnewq]
    exact okHdr_mono (st.append grow (st.hdr c) d).1 _ _ (fun k => le_refl _) hnew

/-- Every other chain keeps its slice value under `c.chain = append(c.chain, d)`. -/
theorem appendTo_hdr_other (grow : Nat → Nat) (st : Store) (c q : Nat) (d : Digest)
    (hne : q ≠ c) : (st.appendTo grow c d).hdr q = st.hdr q := by
  show (List.set _ c _).getD q SliceHdr.null = st.chains.getD q SliceHdr.null
  rw [List.getD_eq_getElem?_getD, List.getElem?_set_ne (Ne.symm hne), append_chains,
    List.getD_eq_getElem?_getD]

/-- Every other chain keeps its length under `c.chain = append(c.chain, d)`. -/
theorem appendTo_length_other (grow : Nat → Nat) (st : Store) (c q : Nat) (d : Digest)
    (hwf : st.wf = true) (hne : q ≠ c) :
    ((st.appendTo grow c d).digests q).length = (st.digests q).length := by
  have h1 := elems_length st (st.hdr q) (wf_hdr_any st hwf q)
  have h2 := elems_length (st.appendTo grow c d) ((st.appendTo grow c d).hdr q)
    (wf_hdr_any _ (appendTo_wf grow st c d hwf) q)
  rw [appendTo_hdr_other grow st c q d hne] at h2
  simp only [Store.digests, appendTo_hdr_other grow st c q d hne]
  rw [h1]
  exact h2

theorem grewFrom_refl (st : Store) : st.grewFrom st :=
  ⟨rfl, [], by simp, by simp⟩

theorem grewFrom_alloc (st : Store) (s : SliceHdr) (hs : st.okHdr s = true) :
    (st.alloc s).1.grewFrom st := by
  refine ⟨rfl, [s], rfl, ?_⟩
  intro t ht
  rw [List.mem_singleton] at ht
  rw [ht]
  exact hs

/-- New chain objects do not change what an old chain holds. -/
theorem grewFrom_digests (st1 st : Store) (h : st1.grewFrom st) (q : Nat)
    (hq : q < st.chains.length) : st1.digests q = st.digests q := by
  obtain ⟨harr, extra, hch, -⟩ := h
  have hh : st1.hdr q = st.hdr q := by
    simp only [Store.hdr, List.getD_eq_getElem?_getD, hch, List.getElem?_append_left hq]
  simp only [Store.digests, hh]
  exact elems_of_arrays_eq _ _ _ harr

theorem grewFrom_wf (st1 st : Store) (h : st1.grewFrom st) (hwf : st.wf = true) :
    st1.wf = true := by
  obtain ⟨harr, extra, hch, hextra⟩ := h
  simp only [Store.wf, List.all_eq_true] at hwf ⊢
  intro q hq
  rw [hch, List.mem_append] at hq
  have hmono : ∀ k, (st.arrays.getD k []).length ≤ (st1.arrays.getD k []).length := by
    intro k
    rw [harr]
  rcases hq with hq | hq
  · exact okHdr_mono st st1 q hmono (hwf q hq)
  · exact okHdr_mono st st1 q hmono (hextra q hq)

/-- A slice of a slice value that lies within its array lies within that array. -/
theorem sliceFrom_okHdr (st : Store) (s s2 : SliceHdr) (lo : Int)
    (hs : st.okHdr s = true) (h : s.sliceFrom lo = some s2) : st.okHdr s2 = true := by
  rw [okHdr_iff] at hs
  unfold SliceHdr.sliceFrom at h
  by_cases hlo : 0 ≤ lo ∧ lo ≤ (s.len : Int)
  · rw [if_pos hlo, Option.some.injEq] at h
    rw [← h, okHdr_iff]
    have : lo.toNat ≤ s.len := by omega
    simp only
    omega
  · rw [if_neg hlo] at h
    exact Option.noConfusion h

/-- The loop of `AllSums` hands the store on as it got it. -/
theorem allSums_store (st : Store) (c : Nat) : (st.AllSums c).1 = st := by
  have key : ∀ (l : List Digest) (acc : Store × List String),
      (l.foldl (fun acc byt => (acc.1, acc.2 ++ [EncodeToString byt])) acc).1 = acc.1 := by
    intro l
    induction l with
    | nil => intro acc; rfl
    | cons a l ih =>
      intro acc
      rw [List.foldl_cons, ih]
  exact key _ _

/-- The loop of `Sum` hands the store on as it got it. -/
theorem sumLoopS_store (l : List Digest) (st : Store) (h : Hash) :
    (sumLoopS l st h).1 = st := by
  induction l generalizing h with
  | nil => rfl
  | cons a l ih =>
    unfold sumLoopS
    rcases hc : ioCopy Hash.Write h (bytesNewBuffer a) with ⟨h1, _ | e⟩
    · exact ih h1
    · rfl

theorem sum_store (st : Store) (c : Nat) (h : Hash) : (st.Sum c h).store = st := by
  have hl := sumLoopS_store (st.digests c) st h
  unfold Store.Sum
  rcases hres : sumLoopS (st.digests c) st h with ⟨st1, h1, _ | e⟩
  · rw [hres] at hl
    exact hl
  · rw [hres] at hl
    exact hl

/-- The loop of `FirstMatch` changes the store by at most one new chain object. -/
theorem firstMatchOuterS_grew (st : Store) (c2 : Nat) (l : List Digest)
    (hwf : st.wf = true) : (firstMatchOuterS st c2 l).1.grewFrom st := by
  induction l with
  | nil => exact grewFrom_refl st
  | cons a l ih =>
    rcases hx : firstMatchInner a (st.digests c2) 0 with _ | x
    · simp only [firstMatchOuterS, hx]
      exact ih
    · rcases hs : (st.hdr c2).sliceFrom (x : Int) with _ | s
      · simp only [firstMatchOuterS, hx, hs]
        exact grewFrom_refl st
      · simp only [firstMatchOuterS, hx, hs]
        exact grewFrom_alloc st s (sliceFrom_okHdr st _ s _ (wf_hdr_any st hwf c2) hs)

/-- The loop of `LastMatch` changes the store by at most one new chain object. -/
theorem lastMatchOuterS_grew (st : Store) (c2 : Nat) (l : List Digest) (ev : Bool)
    (hwf : st.wf = true) : (lastMatchOuterS st c2 l ev).1.grewFrom st := by
  induction l generalizing ev with
  | nil =>
    cases ev
    · exact grewFrom_refl st
    · exact grewFrom_alloc st SliceHdr.null (okHdr_null st)
  | cons a l ih =>
    unfold lastMatchOuterS
    simp only
    split
    · split
      · exact grewFrom_refl st
      · rcases hs : (st.hdr c2).sliceFrom ((lastMatchInner a (st.digests c2) 0 0).2 - 1)
          with _ | s
        · exact grewFrom_refl st
        · exact grewFrom_alloc st s (sliceFrom_okHdr st _ s _ (wf_hdr_any st hwf c2) hs)
    · exact ih _

/-- What an ingestion leaves behind: the store as it was and an error, or the store
after `c.chain = append(c.chain, d)` and no error. -/
theorem add_store_cases (grow : Nat → Nat) (st : Store) (c : Nat) (r : Reader) (h : Hash) :
    ((st.Add grow c r h).err ≠ none ∧ (st.Add grow c r h).store = st) ∨
      ((st.Add grow c r h).err = none ∧
        ∃ d, (st.Add grow c r h).store = st.appendTo grow c d) := by
  unfold Store.Add
  rcases ioCopy Hash.Write h r with ⟨h1, _ | e⟩
  · exact Or.inr ⟨rfl, _, rfl⟩
  · exact Or.inl ⟨by simp, rfl⟩

theorem addInline_store_cases (grow : Nat → Nat) (st : Store) (c : Nat) (w : Writer)
    (r : Reader) (h : Hash) :
    ((st.AddInline grow c w r h).err ≠ none ∧ (st.AddInline grow c w r h).store = st) ∨
      ((st.AddInline grow c w r h).err = none ∧
        ∃ d, (st.AddInline grow c w r h).store = st.appendTo grow c d) := by
  unfold Store.AddInline
  rcases ioCopyTee Writer.Write w h r with ⟨w1, h1, _ | e⟩
  · exact Or.inr ⟨rfl, _, rfl⟩
  · exact Or.inl ⟨by simp, rfl⟩

/-- What an ingestion into the chain `c` does to the chains of a well-formed store. -/
theorem ingest_frame (grow : Nat → Nat) (st out : Store) (err : Option Error) (c : Nat)
    (hwf : st.wf = true) (hc : c < st.chains.length)
    (hcases : (err ≠ none ∧ out = st) ∨ (err = none ∧ ∃ d, out = st.appendTo grow c d)) :
    out.wf = true ∧ st.digests c <+: out.digests c ∧
      (err = none → ∃ d, out.digests c = st.digests c ++ [d]) ∧
      (err ≠ none → out = st) ∧
      (∀ q, q < st.chains.length → q ≠ c →
        (out.digests q).length = (st.digests q).length ∧
        (st.writesInto c q = false → out.digests q = st.digests q)) := by
  rcases hcases with ⟨he, hout⟩ | ⟨he, d, hout⟩
  · subst hout
    exact ⟨hwf, List.prefix_refl _, fun hn => absurd hn he, fun _ => rfl,
      fun q _ _ => ⟨rfl, fun _ => rfl⟩⟩
  · subst hout
    have hself := appendTo_digests_self grow st c d hwf hc
    refine ⟨appendTo_wf grow st c d hwf, ?_, fun _ => ⟨d, hself⟩, fun hn => absurd he hn, ?_⟩
    · rw [hself]
      exact List.prefix_append _ _
    · intro q hq hne
      exact ⟨appendTo_length_other grow st c q d hwf hne,
        fun hw => appendTo_digests_other grow st c q d hwf hq hne hw⟩

/-- What a call that only makes new chain objects does to the chains of a well-formed
store. -/
theorem grew_frame (st out : Store) (c : Nat) (hwf : st.wf = true)
    (hg : out.grewFrom st) (hc : c < st.chains.length) :
    out.wf = true ∧ st.digests c <+: out.digests c ∧
      ∀ q, q < st.chains.length → out.digests q = st.digests q := by
  refine ⟨grewFrom_wf out st hg hwf, ?_, fun q hq => grewFrom_digests out st hg q hq⟩
  rw [grewFrom_digests out st hg c hc]

/-! ## Claim on what the operations leave unchanged -/

/-- C16, as stated, fails for a chain that shares its backing array with the receiver.
In `sharedHistory` chain `2` is the view that `FirstMatch` returned on chain `1`, with
one digest added since; `Add` on chain `1` returns no error and overwrites that digest,
so what chain `2` held before the call is not a prefix of what it holds after it. -/
theorem C16_add_overwrites_digest_of_sharing_chain :
    sharedHistory.wf = true ∧
      sharedHistory.digests 1 = [[1, 1], [1, 2], [1, 3]] ∧
      sharedHistory.digests 2 = [[1, 1], [1, 2], [1, 3], [1, 4]] ∧
      ((Call.add 1 (oneByte 5) (Hash.fresh toyAlgo)).run growDouble sharedHistory).2 = none ∧
      ((Call.add 1 (oneByte 5) (Hash.fresh toyAlgo)).run growDouble sharedHistory).1.digests 2
        = [[1, 1], [1, 2], [1, 3], [1, 5]] ∧
      ¬ (sharedHistory.digests 2 <+:
        ((Call.add 1 (oneByte 5) (Hash.fresh toyAlgo)).run growDouble
          sharedHistory).1.digests 2) := by
  decide

/-- C16 (amended): for every operation on a well-formed store, the digest sequence the
receiver held before the call is a prefix of the one it holds after it.  A successful
`Add` or `AddInline` extends the receiver by exactly one digest at the end and a failed
one leaves the store as it was; every other chain keeps its length, and keeps its
digests unless the cell written in place is one of its elements (it shares the
receiver's backing array).  `AllSums`, `Sum`, `FirstMatch` and `LastMatch` leave the
digest sequence of every chain unchanged.  The store stays well-formed. -/
theorem C16_receiver_only_appended_sharing_chains_may_change (grow : Nat → Nat)
    (st : Store) (call : Call) (hwf : st.wf = true)
    (hrecv : call.receiver < st.chains.length) :
    (call.run grow st).1.wf = true ∧
      st.digests call.receiver <+: (call.run grow st).1.digests call.receiver ∧
      (call.ingests = true → (call.run grow st).2 = none →
        ∃ d, (call.run grow st).1.digests call.receiver = st.digests call.receiver ++ [d]) ∧
      (call.ingests = true → (call.run grow st).2 ≠ none → (call.run grow st).1 = st) ∧
      (call.ingests = true → ∀ q, q < st.chains.length → q ≠ call.receiver →
        ((call.run grow st).1.digests q).length = (st.digests q).length ∧
        (st.writesInto call.receiver q = false →
          (call.run grow st).1.digests q = st.digests q)) ∧
      (call.ingests = false →
        ∀ q, q < st.chains.length → (call.run grow st).1.digests q = st.digests q) := by
  cases call with
  | add c r h =>
    obtain ⟨h1, h2, h3, h4, h5⟩ :=
      ingest_frame grow st _ _ c hwf hrecv (add_store_cases grow st c r h)
    exact ⟨h1, h2, fun _ => h3, fun _ => h4, fun _ => h5, fun hb => Bool.noConfusion hb⟩
  | addInline c w r h =>
    obtain ⟨h1, h2, h3, h4, h5⟩ :=
      ingest_frame grow st _ _ c hwf hrecv (addInline_store_cases grow st c w r h)
    exact ⟨h1, h2, fun _ => h3, fun _ => h4, fun _ => h5, fun hb => Bool.noConfusion hb⟩
  | allSums c =>
    have hg : (st.AllSums c).1.grewFrom st := by
      rw [allSums_store]
      exact grewFrom_refl st
    obtain ⟨h1, h2, h3⟩ := grew_frame st _ c hwf hg hrecv
    exact ⟨h1, h2, fun hb => Bool.noConfusion hb, fun hb => Bool.noConfusion hb,
      fun hb => Bool.noConfusion hb, fun _ => h3⟩
  | sum c h =>
    have hg : (st.Sum c h).store.grewFrom st := by
      rw [sum_store]
      exact grewFrom_refl st
    obtain ⟨h1, h2, h3⟩ := grew_frame st _ c hwf hg hrecv
    exact ⟨h1, h2, fun hb => Bool.noConfusion hb, fun hb => Bool.noConfusion hb,
      fun hb => Bool.noConfusion hb, fun _ => h3⟩
  | firstMatch c c2 =>
    obtain ⟨h1, h2, h3⟩ :=
      grew_frame st _ c hwf (firstMatchOuterS_grew st c2 (st.digests c) hwf) hrecv
    exact ⟨h1, h2, fun hb => Bool.noConfusion hb, fun hb => Bool.noConfusion hb,
      fun hb => Bool.noConfusion hb, fun _ => h3⟩
  | lastMatch c c2 =>
    obtain ⟨h1, h2, h3⟩ :=
      grew_frame st _ c hwf (lastMatchOuterS_grew st c2 (st.digests c) false hwf) hrecv
    exact ⟨h1, h2, fun hb => Bool.noConfusion hb, fun hb => Bool.noConfusion hb,
      fun hb => Bool.noConfusion hb, fun _ => h3⟩

/-- Witness of C16 (amended): in `sharedHistory` the call `Add` on chain `1` extends
chain `1` by one digest and leaves chain `0`, which has its own array, unchanged. -/
theorem C16_receiver_only_appended_sharing_chains_may_change_witness :
    (∃ d, ((Call.add 1 (oneByte 5) (Hash.fresh toyAlgo)).run growDouble
        sharedHistory).1.digests 1 = sharedHistory.digests 1 ++ [d]) ∧
      ((Call.add 1 (oneByte 5) (Hash.fresh toyAlgo)).run growDouble
        sharedHistory).1.digests 0 = sharedHistory.digests 0 :=
  ⟨(C16_receiver_only_appended_sharing_chains_may_change growDouble sharedHistory
      (Call.add 1 (oneByte 5) (Hash.fresh toyAlgo)) (by decide) (by decide)).2.2.1 rfl
      (by decide),
    ((C16_receiver_only_appended_sharing_chains_may_change growDouble sharedHistory
      (Call.add 1 (oneByte 5) (Hash.fresh toyAlgo)) (by decide) (by decide)).2.2.2.2.1 rfl
      0 (by decide) (by decide)).2 (by decide)⟩

/-! ## The methods on the store compute what the methods on digest sequences compute -/

/-- The elements of `s[lo:]` are the elements of `s` from `lo` on. -/
theorem elems_sliceFrom (st : Store) (s s2 : SliceHdr) (lo : Int)
    (h : s.sliceFrom lo = some s2) : st.elems s2 = (st.elems s).drop lo.toNat := by
  unfold SliceHdr.sliceFrom at h
  by_cases hlo : 0 ≤ lo ∧ lo ≤ (s.len : Int)
  · rw [if_pos hlo, Option.some.injEq] at h
    rw [← h]
    simp only [Store.elems]
    rw [List.drop_take, List.drop_drop]
  · rw [if_neg hlo] at h
    exact Option.noConfusion h

/-- The bounds check of `s[lo:]` on a slice value is the one on its elements. -/
theorem sliceFrom_eq_none_iff (st : Store) (s : SliceHdr) (lo : Int)
    (hok : st.okHdr s = true) :
    s.sliceFrom lo = none ↔ sliceFrom (st.elems s) lo = none := by
  have hlen := elems_length st s hok
  unfold SliceHdr.sliceFrom sliceFrom
  rw [hlen]
  by_cases hlo : 0 ≤ lo ∧ lo ≤ (s.len : Int)
  · simp [hlo]
  · simp [hlo]

/-- A new chain object holds the elements of the slice value it was made from. -/
theorem alloc_digests_new (st : Store) (s : SliceHdr) :
    (st.alloc s).1.digests (st.alloc s).2 = st.elems s := by
  have hh : (st.alloc s).1.hdr (st.alloc s).2 = s := by
    show (st.chains ++ [s]).getD st.chains.length SliceHdr.null = s
    simp [List.getD_eq_getElem?_getD]
  simp only [Store.digests, hh]
  exact elems_of_arrays_eq _ _ _ rfl

/-- How a result on the store renders a result on digest sequences: the same error or
abort, or a pointer to a chain that holds the digests of the returned chain. -/
theorem result_agrees_of_slice (st : Store) (s : SliceHdr) (lo : Int)
    (hok : st.okHdr s = true) :
    (∀ l, sliceFrom (st.elems s) lo = some l →
        ∃ s2, s.sliceFrom lo = some s2 ∧ st.elems s2 = l) ∧
      (sliceFrom (st.elems s) lo = none → s.sliceFrom lo = none) := by
  constructor
  · intro l hl
    rcases hs : s.sliceFrom lo with _ | s2
    · rw [(sliceFrom_eq_none_iff st s lo hok).mp hs] at hl
      exact Option.noConfusion hl
    · refine ⟨s2, rfl, ?_⟩
      rw [elems_sliceFrom st s s2 lo hs]
      unfold sliceFrom at hl
      split at hl
      · exact Option.some.inj hl
      · exact Option.noConfusion hl
  · exact (sliceFrom_eq_none_iff st s lo hok).mpr

/-- `FirstMatch` on the store returns what `FirstMatch` on the digest sequences
returns: the same error, or a pointer to a chain that holds the returned digests. -/
theorem firstMatchOuterS_agrees (st : Store) (c2 : Nat) (l : List Digest)
    (hwf : st.wf = true) :
    (∀ res, firstMatchOuter ⟨st.digests c2⟩ l = Result.ok res →
        ∃ p, (firstMatchOuterS st c2 l).2 = Result.ok p ∧
          (firstMatchOuterS st c2 l).1.digests p = res.chain) ∧
      (∀ e, firstMatchOuter ⟨st.digests c2⟩ l = Result.error e →
        (firstMatchOuterS st c2 l).2 = Result.error e) ∧
      (firstMatchOuter ⟨st.digests c2⟩ l = Result.outOfRange →
        (firstMatchOuterS st c2 l).2 = Result.outOfRange) := by
  induction l with
  | nil => simp [firstMatchOuter, firstMatchOuterS]
  | cons a l ih =>
    rcases hx : firstMatchInner a (st.digests c2) 0 with _ | x
    · simp only [firstMatchOuter, firstMatchOuterS, hx]
      exact ih
    · obtain ⟨hsome, hnone⟩ :=
        result_agrees_of_slice st (st.hdr c2) (x : Int) (wf_hdr_any st hwf c2)
      rcases hv : sliceFrom (st.elems (st.hdr c2)) (x : Int) with _ | lv
      · have hs := hnone hv
        have hv2 : sliceFrom (st.digests c2) (x : Int) = none := hv
        simp [firstMatchOuter, firstMatchOuterS, hx, hs, hv2]
      · obtain ⟨s2, hs, hel⟩ := hsome lv hv
        have hv2 : sliceFrom (st.digests c2) (x : Int) = some lv := hv
        simp only [firstMatchOuter, firstMatchOuterS, hx, hs, hv2, Result.ok.injEq,
          reduceCtorEq, false_implies, implies_true, and_true]
        intro res hres
        refine ⟨_, rfl, ?_⟩
        rw [alloc_digests_new, hel, ← hres]

/-- `LastMatch` on the store returns what `LastMatch` on the digest sequences returns:
the same error, or a pointer to a chain that holds the returned digests. -/
theorem lastMatchOuterS_agrees (st : Store) (c2 : Nat) (l : List Digest) (ev : Bool)
    (hwf : st.wf = true) :
    (∀ res, lastMatchOuter ⟨st.digests c2⟩ l ev = Result.ok res →
        ∃ p, (lastMatchOuterS st c2 l ev).2 = Result.ok p ∧
          (lastMatchOuterS st c2 l ev).1.digests p = res.chain) ∧
      (∀ e, lastMatchOuter ⟨st.digests c2⟩ l ev = Result.error e →
        (lastMatchOuterS st c2 l ev).2 = Result.error e) ∧
      (lastMatchOuter ⟨st.digests c2⟩ l ev = Result.outOfRange →
        (lastMatchOuterS st c2 l ev).2 = Result.outOfRange) := by
  induction l generalizing ev with
  | nil =>
    cases ev
    · simp [lastMatchOuter, lastMatchOuterS]
    · simp only [lastMatchOuter, lastMatchOuterS, Bool.not_true, Bool.false_eq_true,
        if_false, Result.ok.injEq, reduceCtorEq, false_implies, implies_true, and_true]
      intro res hres
      refine ⟨_, rfl, ?_⟩
      rw [alloc_digests_new, ← hres]
      simp [Store.elems, SliceHdr.null]
  | cons a l ih =>
    by_cases hbr : (!(lastMatchInner a (st.digests c2) 0 0).1 &&
        (ev || (lastMatchInner a (st.digests c2) 0 0).1)) = true
    · by_cases hidx : ((lastMatchInner a (st.digests c2) 0 0).2 == 0) = true
      · simp only [lastMatchOuter, lastMatchOuterS, hbr, hidx, if_true, Result.ok.injEq,
          reduceCtorEq, false_implies, implies_true, and_true]
        intro res hres
        exact ⟨c2, rfl, by rw [← hres]⟩
      · obtain ⟨hsome, hnone⟩ := result_agrees_of_slice st (st.hdr c2)
          ((lastMatchInner a (st.digests c2) 0 0).2 - 1) (wf_hdr_any st hwf c2)
        rcases hv : sliceFrom (st.elems (st.hdr c2))
            ((lastMatchInner a (st.digests c2) 0 0).2 - 1) with _ | lv
        · have hs := hnone hv
          have hv2 : sliceFrom (st.digests c2)
              ((lastMatchInner a (st.digests c2) 0 0).2 - 1) = none := hv
          simp [lastMatchOuter, lastMatchOuterS, hbr, hidx, hs, hv2]
        · obtain ⟨s2, hs, hel⟩ := hsome lv hv
          have hv2 : sliceFrom (st.digests c2)
              ((lastMatchInner a (st.digests c2) 0 0).2 - 1) = some lv := hv
          simp only [lastMatchOuter, lastMatchOuterS, hbr, hidx, if_true, hs, hv2,
            Bool.false_eq_true, if_false, Result.ok.injEq, reduceCtorEq, false_implies,
            implies_true, and_true]
          intro res hres
          refine ⟨_, rfl, ?_⟩
          rw [alloc_digests_new, hel, ← hres]
    · simp only [lastMatchOuter, lastMatchOuterS, hbr, Bool.false_eq_true, if_false]
      exact ih _

/-- `Add` on the store returns what `Add` on the digest sequence returns, and the
receiver then holds the digest sequence that `Add` on the digest sequence leaves. -/
theorem store_add_agrees (grow : Nat → Nat) (st : Store) (c : Nat) (r : Reader) (h : Hash)
    (hwf : st.wf = true) (hc : c < st.chains.length) :
    (st.Add grow c r h).sum = (Chain.Add ⟨st.digests c⟩ r h).sum ∧
      (st.Add grow c r h).err = (Chain.Add ⟨st.digests c⟩ r h).err ∧
      (st.Add grow c r h).store.digests c = (Chain.Add ⟨st.digests c⟩ r h).chain.chain := by
  unfold Store.Add Chain.Add
  rcases ioCopy Hash.Write h r with ⟨h1, _ | e⟩
  · exact ⟨rfl, rfl, appendTo_digests_self grow st c _ hwf hc⟩
  · exact ⟨rfl, rfl, rfl⟩

/-- `AddInline` on the store returns what `AddInline` on the digest sequence returns,
and the receiver then holds the digest sequence it leaves. -/
theorem store_addInline_agrees (grow : Nat → Nat) (st : Store) (c : Nat) (w : Writer)
    (r : Reader) (h : Hash) (hwf : st.wf = true) (hc : c < st.chains.length) :
    (st.AddInline grow c w r h).sum = (Chain.AddInline ⟨st.digests c⟩ w r h).sum ∧
      (st.AddInline grow c w r h).err = (Chain.AddInline ⟨st.digests c⟩ w r h).err ∧
      (st.AddInline grow c w r h).store.digests c
        = (Chain.AddInline ⟨st.digests c⟩ w r h).chain.chain := by
  unfold Store.AddInline Chain.AddInline
  rcases ioCopyTee Writer.Write w h r with ⟨w1, h1, _ | e⟩
  · exact ⟨rfl, rfl, appendTo_digests_self grow st c _ hwf hc⟩
  · exact ⟨rfl, rfl, rfl⟩

/-- `AllSums` on the store returns what `AllSums` on the digest sequence returns. -/
theorem store_allSums_agrees (st : Store) (c : Nat) :
    (st.AllSums c).2 = Chain.AllSums ⟨st.digests c⟩ := by
  have key : ∀ (l : List Digest) (acc : Store × List String),
      (l.foldl (fun acc byt => (acc.1, acc.2 ++ [EncodeToString byt])) acc).2
        = l.foldl (fun res byt => res ++ [EncodeToString byt]) acc.2 := by
    intro l
    induction l with
    | nil => intro acc; rfl
    | cons a l ih =>
      intro acc
      rw [List.foldl_cons, List.foldl_cons, ih]
  exact key _ _

/-- `Sum` on the store returns what `Sum` on the digest sequence returns. -/
theorem store_sum_agrees (st : Store) (c : Nat) (h : Hash) :
    ((st.Sum c h).sum, (st.Sum c h).err) = Chain.Sum ⟨st.digests c⟩ h := by
  have key : ∀ (l : List Digest) (h0 : Hash), (sumLoopS l st h0).2 = sumLoop l h0 := by
    intro l
    induction l with
    | nil => intro h0; rfl
    | cons a l ih =>
      intro h0
      unfold sumLoopS sumLoop
      rcases ioCopy Hash.Write h0 (bytesNewBuffer a) with ⟨h1, _ | e⟩
      · exact ih h1
      · rfl
  have hk := key (st.digests c) h
  unfold Store.Sum Chain.Sum
  rcases hres : sumLoopS (st.digests c) st h with ⟨st1, h1, _ | e⟩
  · rw [hres] at hk
    simp only at hk
    rw [← hk]
  · rw [hres] at hk
    simp only at hk
    rw [← hk]

/-- `FirstMatch` on the store agrees with `FirstMatch` on what the two chains hold. -/
theorem store_firstMatch_agrees (st : Store) (c c2 : Nat) (hwf : st.wf = true) :
    (∀ res, Chain.FirstMatch ⟨st.digests c⟩ ⟨st.digests c2⟩ = Result.ok res →
        ∃ p, (st.FirstMatch c c2).2 = Result.ok p ∧
          (st.FirstMatch c c2).1.digests p = res.chain) ∧
      (∀ e, Chain.FirstMatch ⟨st.digests c⟩ ⟨st.digests c2⟩ = Result.error e →
        (st.FirstMatch c c2).2 = Result.error e) ∧
      (Chain.FirstMatch ⟨st.digests c⟩ ⟨st.digests c2⟩ = Result.outOfRange →
        (st.FirstMatch c c2).2 = Result.outOfRange) :=
  firstMatchOuterS_agrees st c2 (st.digests c) hwf

/-- `LastMatch` on the store agrees with `LastMatch` on what the two chains hold. -/
theorem store_lastMatch_agrees (st : Store) (c c2 : Nat) (hwf : st.wf = true) :
    (∀ res, Chain.LastMatch ⟨st.digests c⟩ ⟨st.digests c2⟩ = Result.ok res →
        ∃ p, (st.LastMatch c c2).2 = Result.ok p ∧
          (st.LastMatch c c2).1.digests p = res.chain) ∧
      (∀ e, Chain.LastMatch ⟨st.digests c⟩ ⟨st.digests c2⟩ = Result.error e →
        (st.LastMatch c c2).2 = Result.error e) ∧
      (Chain.LastMatch ⟨st.digests c⟩ ⟨st.digests c2⟩ = Result.outOfRange →
        (st.LastMatch c c2).2 = Result.outOfRange) :=
  lastMatchOuterS_agrees st c2 (st.digests c) false hwf

end hashchain
